import Mathlib

/-!
CryptStream: task queue, task record and stream cipher

A shallow embedding of `include/task_queue.hpp`, `src/task_queue.cpp`,
`include/crypto.hpp`, `src/crypto.cpp`, of `ProcessPool::worker_loop` and
`ProcessPool::wait_all` in `src/process_pool.cpp` and of the producer in
`src/main.cpp`, followed by the properties proved about it.

Conventions of the embedding.

* A `char` or `uint8_t` is a natural number; a `char[N]` buffer and a
  `std::vector<uint8_t>` are lists of such numbers.
* A `size_t` is a natural number and every `size_t` addition or subtraction is
  reduced modulo `SIZE_MOD` (2^64), as the machine does.
* Every `TaskQueue` member function that takes the process-shared mutex is a
  single critical section, so it is embedded as one atomic function from the
  shared `QueueData` to the new `QueueData` (and the returned value). The
  mutex itself carries no data and is left out of the record.
* A reference parameter that the function may write (`Task& task`) is passed
  in and handed back.
* The processes (one producer, the workers) are embedded as a step function on
  the state of the whole system: a step is one atomic action of one process,
  that is one call on the queue, one semaphore operation, or the work on one
  task. A `wait()` on a semaphore of value zero and a `waitpid` on a running
  worker are actions that cannot be taken. The semaphore and process
  primitives of the operating system do not fail, every `fork` succeeds, and
  the external `FileProcessor::process_file` returns; its outcome is a
  parameter.
-/

namespace cryptstream

/-- Modulus of `size_t` arithmetic. -/
abbrev SIZE_MOD : Nat := 18446744073709551616

/-! ## `struct Task` -/

/-- The enumeration `Task::Type`. -/
inductive TaskType where
  | ENCRYPT
  | DECRYPT
  | TERMINATE
  deriving DecidableEq, Repr

/-- The record `struct Task`: `input_file` and `output_file` are `char[256]`,
`key` is `char[64]`. -/
structure Task where
  type : TaskType
  input_file : List Nat
  output_file : List Nat
  key : List Nat
  completed : Bool
  worker_id : Int
  deriving DecidableEq, Repr

namespace Task

/-- Value of `sizeof(input_file)`. -/
abbrev INPUT_FILE_SIZE : Nat := 256

/-- Value of `sizeof(output_file)`. -/
abbrev OUTPUT_FILE_SIZE : Nat := 256

/-- Value of `sizeof(key)`. -/
abbrev KEY_SIZE : Nat := 64

/-- The three buffers of a task have their declared sizes. -/
def WellSized (t : Task) : Prop :=
  t.input_file.length = INPUT_FILE_SIZE ∧
  t.output_file.length = OUTPUT_FILE_SIZE ∧
  t.key.length = KEY_SIZE

instance (t : Task) : Decidable t.WellSized := by
  unfold WellSized; infer_instance

/-- The constructor `Task::Task()` (named `ctor` here), run on the storage `mem` of the new object:
it sets `type`, `completed`, `worker_id` and the first byte of each buffer, and
leaves the other bytes of the buffers as they were. -/
def ctor (mem : Task) : Task :=
  { type := TaskType.TERMINATE
    input_file := mem.input_file.set 0 0
    output_file := mem.output_file.set 0 0
    key := mem.key.set 0 0
    completed := false
    worker_id := -1 }

/-- The bytes `std::string::c_str()` points at: the characters followed by a
terminating NUL. -/
def c_str (s : List Nat) : List Nat := s ++ [0]

/-- The library function `std::strncpy(dest, src, n)`: the characters of the C
string `src` up to its first NUL are copied to the front of `dest`, at most
`n` of them, and when fewer than `n` were copied the rest of the first `n`
bytes of `dest` is filled with NUL. The end of the list `src` counts as a NUL.
Bytes of `dest` from position `n` on are kept. -/
def strncpy : List Nat → List Nat → Nat → List Nat
  | dest, _, 0 => dest
  | [], _, _ + 1 => []
  | _ :: dest, [], n + 1 => 0 :: strncpy dest [] n
  | _ :: dest, c :: src, n + 1 =>
    if c = 0 then 0 :: strncpy dest [] n else c :: strncpy dest src n

/-- The C string held in a buffer: the bytes before the first NUL. -/
def cstring (buf : List Nat) : List Nat := buf.takeWhile (fun c => c ≠ 0)

/-- The member function `Task::set_input`. -/
def set_input (t : Task) (path : List Nat) : Task :=
  { t with
    input_file :=
      (strncpy t.input_file (c_str path) (INPUT_FILE_SIZE - 1)).set (INPUT_FILE_SIZE - 1) 0 }

/-- The member function `Task::set_output`. -/
def set_output (t : Task) (path : List Nat) : Task :=
  { t with
    output_file :=
      (strncpy t.output_file (c_str path) (OUTPUT_FILE_SIZE - 1)).set (OUTPUT_FILE_SIZE - 1) 0 }

/-- The member function `Task::set_key`. -/
def set_key (t : Task) (k : List Nat) : Task :=
  { t with
    key := (strncpy t.key (c_str k) (KEY_SIZE - 1)).set (KEY_SIZE - 1) 0 }

end Task

/-! ## `class TaskQueue` -/

namespace TaskQueue

/-- The constant `TaskQueue::MAX_TASKS`. -/
abbrev MAX_TASKS : Nat := 128

/-- The record `TaskQueue::QueueData` laid out in the shared segment (without
the mutex). `tasks` is the array `Task tasks[MAX_TASKS]`. -/
structure QueueData where
  head : Nat
  tail : Nat
  count : Nat
  shutdown : Bool
  tasks : List Task
  deriving DecidableEq, Repr

/-- The constructor `TaskQueue::TaskQueue(shm, initialise)` (named `ctor` here) as its effect on the
`QueueData` found in the segment: the owner resets the four header fields, an
attaching process changes nothing. The slots are not written. -/
def ctor (mem : QueueData) (initialise : Bool) : QueueData :=
  if initialise then
    { mem with head := 0, tail := 0, count := 0, shutdown := false }
  else mem

/-- The member function `TaskQueue::enqueue`: the returned flag and the new
queue data. A store to `tasks[tail]` with `tail` outside the array (undefined in
C++) stores nothing. -/
def enqueue (q : QueueData) (task : Task) : Bool × QueueData :=
  if q.shutdown then (false, q)
  else if q.count ≥ MAX_TASKS then (false, q)
  else
    (true,
      { q with
        tasks := q.tasks.set q.tail task
        tail := ((q.tail + 1) % SIZE_MOD) % MAX_TASKS
        count := (q.count + 1) % SIZE_MOD })

/-- The member function `TaskQueue::dequeue`: the returned flag, the caller's
`task` after the call, and the new queue data. A load from `tasks[head]` with
`head` outside the array (undefined in C++) loads nothing and leaves `task` as
it was. -/
def dequeue (q : QueueData) (task : Task) : Bool × Task × QueueData :=
  if q.count = 0 then (!q.shutdown, task, q)
  else
    (true, q.tasks.getD q.head task,
      { q with
        head := ((q.head + 1) % SIZE_MOD) % MAX_TASKS
        count := (q.count + SIZE_MOD - 1) % SIZE_MOD })

/-- The member function `TaskQueue::is_empty`. -/
def is_empty (q : QueueData) : Bool := q.count = 0

/-- The member function `TaskQueue::is_full`. -/
def is_full (q : QueueData) : Bool := q.count ≥ MAX_TASKS

/-- The member function `TaskQueue::size`. -/
def size (q : QueueData) : Nat := q.count

/-- The member function `TaskQueue::signal_shutdown`. -/
def signal_shutdown (q : QueueData) : QueueData :=
  { q with shutdown := true }

/-- The member function `TaskQueue::is_shutdown`. -/
def is_shutdown (q : QueueData) : Bool := q.shutdown

/-- The array `tasks` has its declared number of slots. -/
def Layout (q : QueueData) : Prop := q.tasks.length = MAX_TASKS

instance (q : QueueData) : Decidable (Layout q) := by
  unfold Layout; infer_instance

/-- The queue invariant on the header fields: `count` is at most `MAX_TASKS`,
`head` and `tail` are slot indices, and `tail` is `count` slots after `head`
around the ring. -/
def Inv (q : QueueData) : Prop :=
  q.count ≤ MAX_TASKS ∧ q.head < MAX_TASKS ∧ q.tail < MAX_TASKS ∧
    q.tail = (q.head + q.count) % MAX_TASKS

instance (q : QueueData) : Decidable (Inv q) := by
  unfold Inv; infer_instance

/-- The live tasks of a queue, oldest first: the contents of the `count` slots
`head`, `head + 1`, ... taken around the ring. -/
def live (q : QueueData) : List Task :=
  (List.range q.count).filterMap (fun i => q.tasks[(q.head + i) % MAX_TASKS]?)

/-- A call of a public member function of `TaskQueue`, with its arguments. For
`dequeue` the argument is the caller's `Task` object before the call. -/
inductive Op where
  | enqueue (task : Task)
  | dequeue (task : Task)
  | is_empty
  | is_full
  | size
  | signal_shutdown
  | is_shutdown
  deriving DecidableEq, Repr

/-- What a call hands back: a `bool`, a `bool` together with the caller's task
after the call (for `dequeue`), a `size_t`, or nothing. -/
inductive Ret where
  | flag (b : Bool)
  | fetched (b : Bool) (task : Task)
  | number (n : Nat)
  | done
  deriving DecidableEq, Repr

/-- One serialized call on the shared queue data. -/
def step (q : QueueData) : Op → Ret × QueueData
  | Op.enqueue task => (Ret.flag (enqueue q task).1, (enqueue q task).2)
  | Op.dequeue task =>
    (Ret.fetched (dequeue q task).1 (dequeue q task).2.1, (dequeue q task).2.2)
  | Op.is_empty => (Ret.flag (is_empty q), q)
  | Op.is_full => (Ret.flag (is_full q), q)
  | Op.size => (Ret.number (size q), q)
  | Op.signal_shutdown => (Ret.done, signal_shutdown q)
  | Op.is_shutdown => (Ret.flag (is_shutdown q), q)

/-- The queue data after a sequence of serialized calls. -/
def run : QueueData → List Op → QueueData
  | q, [] => q
  | q, op :: ops => run (step q op).2 ops

/-- The values handed back by a sequence of serialized calls, in call order. -/
def results : QueueData → List Op → List Ret
  | _, [] => []
  | q, op :: ops => (step q op).1 :: results (step q op).2 ops

/-- The tasks passed to the `enqueue` calls of a sequence that returned true,
in call order. -/
def accepted : QueueData → List Op → List Task
  | _, [] => []
  | q, Op.enqueue task :: ops =>
    if (enqueue q task).1 then task :: accepted (enqueue q task).2 ops
    else accepted (enqueue q task).2 ops
  | q, op :: ops => accepted (step q op).2 ops

/-- The tasks handed to the caller by the `dequeue` calls of a sequence that
found the queue non-empty, in call order. -/
def taken : QueueData → List Op → List Task
  | _, [] => []
  | q, Op.dequeue task :: ops =>
    if q.count ≠ 0 then (dequeue q task).2.1 :: taken (dequeue q task).2.2 ops
    else taken (dequeue q task).2.2 ops
  | q, op :: ops => taken (step q op).2 ops

end TaskQueue

/-! ## `class Crypto` -/

/-- The data members of `Crypto`: the expanded key `key_` and the keystream
position `key_index_`. -/
structure Crypto where
  key_ : List Nat
  key_index_ : Nat
  deriving DecidableEq, Repr

namespace Crypto

/-- The exception a constructor of `Crypto` can throw. -/
inductive Error where
  | invalid_argument
  deriving DecidableEq, Repr

/-- The conversion `static_cast<uint8_t>` of a character. -/
def to_uint8 (c : Nat) : Nat := c % 256

/-- The member function `Crypto::expandKey`: 256 bytes are pushed onto `key_`,
byte `i` being character `i % key.size()` of the key. -/
def expandKey (c : Crypto) (key : List Nat) : Crypto :=
  (List.range 256).foldl
    (fun c i => { c with key_ := c.key_ ++ [to_uint8 (key.getD (i % key.length) 0)] }) c

/-- The constructor `Crypto::Crypto(key)` (named `ctor` here): it throws on an
empty key and otherwise expands the key, with the position at zero. -/
def ctor (key : List Nat) : Except Error Crypto :=
  if key.isEmpty then Except.error Error.invalid_argument
  else Except.ok (expandKey { key_ := [], key_index_ := 0 } key)

/-- The member function `Crypto::process`: byte `i` of the buffer is replaced by
its exclusive-or with byte `(key_index_ + i) % key_.size()` of the expanded key,
kept to eight bits, and the position advances by the length of the buffer.
Returns the object and the buffer after the call. -/
def process (c : Crypto) (data : List Nat) : Crypto × List Nat :=
  ({ c with key_index_ := ((c.key_index_ + data.length) % SIZE_MOD) % c.key_.length },
    (List.range data.length).foldl
      (fun d i =>
        d.set i
          ((d.getD i 0 ^^^ c.key_.getD (((c.key_index_ + i) % SIZE_MOD) % c.key_.length) 0)
            % 256))
      data)

/-- The member function `Crypto::encrypt`. -/
def encrypt (c : Crypto) (data : List Nat) : Crypto × List Nat := process c data

/-- The member function `Crypto::decrypt`. -/
def decrypt (c : Crypto) (data : List Nat) : Crypto × List Nat := process c data

/-- Encrypting a buffer with a fresh object built from `key` and decrypting the
outcome with another fresh object built from the same key: the buffer at the
end, or the exception of a constructor. -/
def round_trip (key data : List Nat) : Except Error (List Nat) :=
  match ctor key with
  | Except.error e => Except.error e
  | Except.ok enc =>
    match ctor key with
    | Except.error e => Except.error e
    | Except.ok dec => Except.ok (decrypt dec (encrypt enc data).2).2

end Crypto

/-! ## `class ProcessPool`, the worker loop and the producer -/

namespace ProcessPool

/-- What the processes share: the queue data in the shared segment and the
values of the two named semaphores, `task_sem` (work available) and `done_sem`
(work done). -/
structure Shared where
  queue : TaskQueue.QueueData
  task_sem : Nat
  done_sem : Nat
  deriving DecidableEq, Repr

/-- Where a worker stands in `ProcessPool::worker_loop`:
`wait` in `task_sem.wait()` at the top of the loop; `check` back from the wait,
before the test of `queue.is_shutdown()`; `fetch` before `Task task;` and
`queue.dequeue(task)`; `recheck` after a dequeue that returned false, before the
second test of `queue.is_shutdown()`; `work task` holding a dequeued task whose
type is not `TERMINATE`, before `FileProcessor::process_file(task)` and
`done_sem.post()`; `exited` out of the loop. -/
inductive Pc where
  | wait
  | check
  | fetch
  | recheck
  | work (task : Task)
  | exited
  deriving DecidableEq, Repr

/-- A worker process: its place in the loop and, as a record of what it did,
the calls of `FileProcessor::process_file` it has made with their outcomes. -/
structure Worker where
  pc : Pc
  processed : List (Task × Bool)
  deriving DecidableEq, Repr

/-- One atomic action of a worker running `worker_loop`, or `none` when the
worker cannot move (blocked in `wait()` on a zero semaphore, or exited).
`process_file` is the outcome of the external task-processing function and
`stack` is the storage in which `Task task;` is constructed. -/
def worker_step (process_file : Task → Bool) (stack : Task) (w : Worker) (s : Shared) :
    Option (Worker × Shared) :=
  match w.pc with
  | Pc.wait =>
    if 0 < s.task_sem then
      some ({ w with pc := Pc.check }, { s with task_sem := s.task_sem - 1 })
    else none
  | Pc.check =>
    if TaskQueue.is_shutdown s.queue then some ({ w with pc := Pc.exited }, s)
    else some ({ w with pc := Pc.fetch }, s)
  | Pc.fetch =>
    if !(TaskQueue.dequeue s.queue (Task.ctor stack)).1 then
      some ({ w with pc := Pc.recheck },
        { s with queue := (TaskQueue.dequeue s.queue (Task.ctor stack)).2.2 })
    else if (TaskQueue.dequeue s.queue (Task.ctor stack)).2.1.type = TaskType.TERMINATE then
      some ({ w with pc := Pc.exited },
        { s with queue := (TaskQueue.dequeue s.queue (Task.ctor stack)).2.2 })
    else
      some ({ w with pc := Pc.work (TaskQueue.dequeue s.queue (Task.ctor stack)).2.1 },
        { s with queue := (TaskQueue.dequeue s.queue (Task.ctor stack)).2.2 })
  | Pc.recheck =>
    if TaskQueue.is_shutdown s.queue then some ({ w with pc := Pc.exited }, s)
    else some ({ w with pc := Pc.wait }, s)
  | Pc.work task =>
    some ({ pc := Pc.wait, processed := w.processed ++ [(task, process_file task)] },
      { s with done_sem := s.done_sem + 1 })
  | Pc.exited => none

/-- A worker runs on its own, no other process acting meanwhile, for at most
`fuel` actions or until it is back at the top of the loop or out of it. -/
def worker_advance (process_file : Task → Bool) (stack : Task) :
    Nat → Worker × Shared → Worker × Shared
  | 0, ws => ws
  | fuel + 1, ws =>
    if ws.1.pc = Pc.wait ∨ ws.1.pc = Pc.exited then ws
    else
      match worker_step process_file stack ws.1 ws.2 with
      | some next => worker_advance process_file stack fuel next
      | none => ws

/-- One iteration of the loop body of `worker_loop`, from the return of
`task_sem.wait()` to the next `wait()` or to the exit of the loop, run without
interference: three actions at most (the shutdown test, the dequeue, then the
second shutdown test or the processing of the task). -/
def worker_iteration (process_file : Task → Bool) (stack : Task) (w : Worker) (s : Shared) :
    Worker × Shared :=
  worker_advance process_file stack 3 ({ w with pc := Pc.check }, s)

/-- The member function `ProcessPool::start` when every `fork` succeeds: the
worker processes it creates, each entering `worker_loop`. -/
def start (num_processes : Nat) : List Worker :=
  List.replicate num_processes { pc := Pc.wait, processed := [] }

/-- One instruction of the producer, as found in `main`:
`enqueue task` is `if (!queue.enqueue(task)) return 1;`, `post_task` is
`task_sem.post()`, `wait_done` is `done_sem.wait()`, `signal_shutdown` is
`queue.signal_shutdown()` and `wait_all` is `pool.wait_all()`. -/
inductive Instr where
  | enqueue (task : Task)
  | post_task
  | wait_done
  | signal_shutdown
  | wait_all
  deriving DecidableEq, Repr

/-- The whole system: the shared state, the worker processes, the instructions
the producer has still to run, the number of workers for which the `waitpid` of
`wait_all` has returned, whether the producer gave up on a failed enqueue, and
(as a record) the tasks whose enqueue returned true, oldest first. -/
structure System where
  shared : Shared
  workers : List Worker
  script : List Instr
  reaped : Nat
  failed : Bool
  accepted : List Task
  deriving DecidableEq, Repr

/-- The processes that can act. -/
inductive Actor where
  | producer
  | worker (i : Nat)
  deriving DecidableEq, Repr

/-- One atomic action of the producer, or `none` when it cannot move (blocked
in `done_sem.wait()` or in a `waitpid`, finished, or given up). In `wait_all`
the workers are waited for one after the other in the order of their creation.
-/
def producer_step (s : System) : Option System :=
  if s.failed then none
  else
    match s.script with
    | [] => none
    | Instr.enqueue task :: rest =>
      if (TaskQueue.enqueue s.shared.queue task).1 then
        some { s with
          shared := { s.shared with queue := (TaskQueue.enqueue s.shared.queue task).2 }
          script := rest
          accepted := s.accepted ++ [task] }
      else
        some { s with
          shared := { s.shared with queue := (TaskQueue.enqueue s.shared.queue task).2 }
          script := rest
          failed := true }
    | Instr.post_task :: rest =>
      some { s with
        shared := { s.shared with task_sem := s.shared.task_sem + 1 }
        script := rest }
    | Instr.wait_done :: rest =>
      if 0 < s.shared.done_sem then
        some { s with
          shared := { s.shared with done_sem := s.shared.done_sem - 1 }
          script := rest }
      else none
    | Instr.signal_shutdown :: rest =>
      some { s with
        shared := { s.shared with queue := TaskQueue.signal_shutdown s.shared.queue }
        script := rest }
    | Instr.wait_all :: rest =>
      if s.reaped < s.workers.length then
        match s.workers[s.reaped]? with
        | some w => if w.pc = Pc.exited then some { s with reaped := s.reaped + 1 } else none
        | none => none
      else some { s with script := rest }

/-- One atomic action of the chosen process, or `none` when that process cannot
move. -/
def step (process_file : Task → Bool) (stack : Task) (a : Actor) (s : System) :
    Option System :=
  match a with
  | Actor.producer => producer_step s
  | Actor.worker i =>
    match s.workers[i]? with
    | none => none
    | some w =>
      match worker_step process_file stack w s.shared with
      | none => none
      | some next => some { s with workers := s.workers.set i next.1, shared := next.2 }

/-- The state after the actions of a schedule, one process acting at a time, or
`none` when the schedule picks a process that cannot move. -/
def exec (process_file : Task → Bool) (stack : Task) : System → List Actor → Option System
  | s, [] => some s
  | s, a :: rest =>
    match step process_file stack a s with
    | none => none
    | some next => exec process_file stack next rest

/-- The system as the producer sets it up: the owner initialises the queue in
the segment `mem`, both semaphores are created with value zero, and the pool is
started with `num_processes` workers. -/
def boot (mem : TaskQueue.QueueData) (num_processes : Nat) (script : List Instr) : System :=
  { shared := { queue := TaskQueue.ctor mem true, task_sem := 0, done_sem := 0 }
    workers := start num_processes
    script := script
    reaped := 0
    failed := false
    accepted := [] }

/-- The producer protocol up to the shutdown signal: every enqueue is followed
at once by one `task_sem.post()` (run only when the enqueue succeeded), and
there is no other post; waits on `done_sem` may come in between. -/
def Protocol : List Instr → Prop
  | [] => True
  | Instr.enqueue _ :: Instr.post_task :: rest => Protocol rest
  | Instr.wait_done :: rest => Protocol rest
  | Instr.signal_shutdown :: _ => True
  | _ => False

/-- The sum over the workers of a number attached to their place in the loop. -/
def total (f : Pc → Nat) (ws : List Worker) : Nat := (ws.map (fun w => f w.pc)).sum

/-- Counts 1 for a worker that is back from `wait()` and has not yet called
`dequeue`. -/
def woken : Pc → Nat
  | Pc.check => 1
  | Pc.fetch => 1
  | _ => 0

/-- Counts 1 for a worker in `wait()`. -/
def at_wait : Pc → Nat
  | Pc.wait => 1
  | _ => 0

/-- Counts 1 for a worker back from `wait()`, before the shutdown test. -/
def at_check : Pc → Nat
  | Pc.check => 1
  | _ => 0

/-- Counts 1 for a worker about to call `dequeue`. -/
def at_fetch : Pc → Nat
  | Pc.fetch => 1
  | _ => 0

/-- Counts 1 for a worker whose `dequeue` returned false. -/
def at_recheck : Pc → Nat
  | Pc.recheck => 1
  | _ => 0

/-- Counts 1 for a worker holding a task to process. -/
def at_work : Pc → Nat
  | Pc.work _ => 1
  | _ => 0

/-- Counts 1 for a worker that has left the loop. -/
def at_exited : Pc → Nat
  | Pc.exited => 1
  | _ => 0

/-- Is 1 when the next instruction of the producer is the post that follows a
successful enqueue, else 0. -/
def pending : List Instr → Nat
  | Instr.post_task :: _ => 1
  | _ => 0

/-- The protocol for what is left of a script, which may start with the post
owed for the enqueue just made. -/
def ProtocolFrom : List Instr → Prop
  | Instr.post_task :: rest => Protocol rest
  | script => Protocol script

/-- The queue is well formed and its live tasks are the last of the accepted
ones. -/
def Sound (s : System) : Prop :=
  TaskQueue.Inv s.shared.queue ∧ TaskQueue.Layout s.shared.queue ∧
    TaskQueue.live s.shared.queue <:+ s.accepted

/-- Before the shutdown signal: the producer follows the protocol, and the
value of `task_sem` plus the woken workers plus the post still owed do not
exceed the number of queued tasks. -/
def Budget (s : System) : Prop :=
  s.shared.queue.shutdown = false →
    (s.failed = false → ProtocolFrom s.script) ∧
    s.shared.task_sem + total woken s.workers + (if s.failed then 0 else pending s.script)
      ≤ s.shared.queue.count

/-- The submission of a list of tasks: each is enqueued and announced by a
post of `task_sem`. -/
def submit (tasks : List Task) : List Instr :=
  tasks.flatMap (fun t => [Instr.enqueue t, Instr.post_task])

/-- The shutdown of a pool of `n` workers: the shutdown signal, one post of
`task_sem` per worker, and `wait_all`. -/
def closing (n : Nat) : List Instr :=
  Instr.signal_shutdown :: (List.replicate n Instr.post_task ++ [Instr.wait_all])

/-- The producer of the pool scenario: each task is enqueued and announced by a
post, then one wait on `done_sem` per task, then the shutdown signal, one post
per worker, and `wait_all`. -/
def scenario (tasks : List Task) (num_processes : Nat) : List Instr :=
  submit tasks ++ (List.replicate tasks.length Instr.wait_done ++ closing num_processes)

/-- The end of the pool scenario: the producer has run all its instructions
without giving up, every worker has left its loop and every worker has been
reaped. -/
def Final (s : System) : Prop :=
  s.script = [] ∧ s.failed = false ∧ s.reaped = s.workers.length ∧
    ∀ w ∈ s.workers, w.pc = Pc.exited

/-- The number of `task_sem.post()` instructions in a script. -/
def posts : List Instr → Nat
  | [] => 0
  | Instr.post_task :: rest => posts rest + 1
  | _ :: rest => posts rest

/-- The number of actions a worker can still take before it is back in
`wait()` or out of the loop. -/
def remaining : Pc → Nat
  | Pc.wait => 0
  | Pc.check => 3
  | Pc.fetch => 2
  | Pc.recheck => 1
  | Pc.work _ => 1
  | Pc.exited => 0

/-- A bound on the number of actions the system can still take: four for every
post made or still to be made and not yet consumed by a wake-up, what each
worker has left of its iteration, the instructions left to the producer, and
the workers left to reap. -/
def measure (s : System) : Nat :=
  4 * (s.shared.task_sem + posts s.script) + total remaining s.workers + s.script.length
    + (s.workers.length - s.reaped)

/-- The scripts the producer of the scenario can be left with before the
shutdown signal, for `m` tasks and `n` workers, with the numbers of enqueues
(`pe`), of posts before the shutdown signal (`pp`) and of waits on `done_sem`
(`pw`) still to run: about to enqueue, about to post for the enqueue just made,
or waiting for the tasks to be done. -/
def PreShape (m n : Nat) (script : List Instr) (pe pp pw : Nat) : Prop :=
  (∃ t ts, script = Instr.enqueue t :: Instr.post_task ::
        (submit ts ++ (List.replicate m Instr.wait_done ++ closing n)) ∧
      t.type ≠ TaskType.TERMINATE ∧ (∀ x ∈ ts, x.type ≠ TaskType.TERMINATE) ∧
      pe = ts.length + 1 ∧ pp = ts.length + 1 ∧ pw = m) ∨
  (∃ ts, script = Instr.post_task ::
        (submit ts ++ (List.replicate m Instr.wait_done ++ closing n)) ∧
      (∀ x ∈ ts, x.type ≠ TaskType.TERMINATE) ∧
      pe = ts.length ∧ pp = ts.length + 1 ∧ pw = m) ∨
  (script = List.replicate pw Instr.wait_done ++ closing n ∧ pe = 0 ∧ pp = 0 ∧ pw ≤ m)

/-- What holds in the scenario before the shutdown signal: no worker has left
the loop or seen a failed dequeue; every task not yet waited for by the
producer is a post still to come, a value of `task_sem`, a woken worker, a
worker at work or a value of `done_sem`; every queued task is a post owed, a
value of `task_sem` or a woken worker; and no queued task is a `TERMINATE`. -/
def PreInv (m n : Nat) (s : System) : Prop :=
  ∃ pe pp pw, PreShape m n s.script pe pp pw ∧
    s.shared.queue.shutdown = false ∧ s.failed = false ∧ s.reaped = 0 ∧
    s.workers.length = n ∧
    total at_recheck s.workers = 0 ∧ total at_exited s.workers = 0 ∧
    s.shared.task_sem + total at_check s.workers + total at_fetch s.workers
      + total at_work s.workers + s.shared.done_sem + pp = pw ∧
    s.shared.queue.count + pe
      = s.shared.task_sem + total at_check s.workers + total at_fetch s.workers + pp ∧
    ∀ t ∈ TaskQueue.live s.shared.queue, t.type ≠ TaskType.TERMINATE

/-- What holds in the scenario after the shutdown signal: the producer has `j`
posts and `wait_all` left; every worker is in `wait()`, back from it, or out of
the loop; each of the `n` workers is out of the loop, back from `wait()`, or
has a post waiting for it in `task_sem` or still to come; and the workers
reaped so far had left the loop. -/
def PostInv (n : Nat) (s : System) : Prop :=
  ∃ j, s.script = List.replicate j Instr.post_task ++ [Instr.wait_all] ∧
    s.shared.queue.shutdown = true ∧ s.failed = false ∧ s.workers.length = n ∧
    total at_fetch s.workers = 0 ∧ total at_recheck s.workers = 0 ∧
    total at_work s.workers = 0 ∧
    s.shared.task_sem + total at_check s.workers + total at_exited s.workers + j = n ∧
    s.reaped ≤ n ∧
    ∀ i, i < s.reaped → ∃ w, s.workers[i]? = some w ∧ w.pc = Pc.exited

/-- The invariant of the pool scenario with `m` tasks and `n` workers. -/
def ScenInv (m n : Nat) (s : System) : Prop :=
  Sound s ∧ (PreInv m n s ∨ PostInv n s ∨ Final s)

end ProcessPool

/-! ## Concrete values used to instantiate the theorems -/

namespace Sample

/-- A default-constructed task (type `TERMINATE`, worker -1) in storage whose
buffers are zero. -/
def blank : Task :=
  { type := TaskType.TERMINATE
    input_file := List.replicate 256 0
    output_file := List.replicate 256 0
    key := List.replicate 64 0
    completed := false
    worker_id := -1 }

/-- An encryption job whose input path starts with byte `n + 1`. -/
def job (n : Nat) : Task :=
  { blank with type := TaskType.ENCRYPT, input_file := (n + 1) :: List.replicate 255 0 }

/-- A task record whose bytes are all zero: the first enumerator of the type,
empty buffers, `completed` false and worker 0. -/
def zeroed : Task :=
  { type := TaskType.ENCRYPT
    input_file := List.replicate 256 0
    output_file := List.replicate 256 0
    key := List.replicate 64 0
    completed := false
    worker_id := 0 }

/-- A zero-filled shared segment, as the owner finds it. -/
def segment : TaskQueue.QueueData :=
  { head := 0, tail := 0, count := 0, shutdown := false, tasks := List.replicate 128 zeroed }

/-- A queue holding two jobs in slots 127 and 0, so that it wraps around. -/
def wrapped : TaskQueue.QueueData :=
  { head := 127, tail := 1, count := 2, shutdown := false,
    tasks := job 1 :: (List.replicate 126 blank ++ [job 0]) }

/-- The system after the producer has submitted two jobs and worker 0 has
woken and passed its shutdown test. -/
def woken_system : ProcessPool.System :=
  { shared :=
      { queue :=
          (TaskQueue.enqueue (TaskQueue.enqueue (TaskQueue.ctor segment true) (job 0)).2
            (job 1)).2
        task_sem := 1
        done_sem := 0 }
    workers :=
      [{ pc := ProcessPool.Pc.fetch, processed := [] },
        { pc := ProcessPool.Pc.wait, processed := [] }]
    script := []
    reaped := 0
    failed := false
    accepted := [job 0, job 1] }

/-- The pool scenario with ten jobs and four workers after the producer has
submitted the first job and worker 0 has woken and passed its shutdown test. -/
def pool_state : ProcessPool.System :=
  { shared :=
      { queue := (TaskQueue.enqueue (TaskQueue.ctor segment true) (job 0)).2
        task_sem := 0
        done_sem := 0 }
    workers :=
      [{ pc := ProcessPool.Pc.fetch, processed := [] },
        { pc := ProcessPool.Pc.wait, processed := [] },
        { pc := ProcessPool.Pc.wait, processed := [] },
        { pc := ProcessPool.Pc.wait, processed := [] }]
    script := List.drop 2 (ProcessPool.scenario (List.map job (List.range 10)) 4)
    reaped := 0
    failed := false
    accepted := [job 0] }

end Sample

/-! ## Properties of the task queue -/

namespace TaskQueue

theorem layout_enqueue (q : QueueData) (task : Task) (hl : Layout q) :
    Layout (enqueue q task).2 := by
  unfold Layout enqueue at *
  split_ifs <;> simp [hl]

theorem layout_dequeue (q : QueueData) (task : Task) (hl : Layout q) :
    Layout (dequeue q task).2.2 := by
  unfold Layout dequeue at *
  split_ifs <;> simp [hl]

theorem layout_step (q : QueueData) (op : Op) (hl : Layout q) : Layout (step q op).2 := by
  cases op <;> simp only [step]
  · exact layout_enqueue q _ hl
  · exact layout_dequeue q _ hl
  all_goals exact hl

theorem inv_enqueue (q : QueueData) (task : Task) (hi : Inv q) : Inv (enqueue q task).2 := by
  unfold Inv enqueue at *
  split_ifs <;> simp only [MAX_TASKS, SIZE_MOD] at * <;> omega

theorem inv_dequeue (q : QueueData) (task : Task) (hi : Inv q) :
    Inv (dequeue q task).2.2 := by
  unfold Inv dequeue at *
  split_ifs <;> simp only [MAX_TASKS, SIZE_MOD] at * <;> omega

theorem inv_step (q : QueueData) (op : Op) (hi : Inv q) : Inv (step q op).2 := by
  cases op <;> simp only [step]
  · exact inv_enqueue q _ hi
  · exact inv_dequeue q _ hi
  all_goals exact hi

theorem inv_run (q : QueueData) (ops : List Op) (hi : Inv q) : Inv (run q ops) := by
  induction ops generalizing q with
  | nil => exact hi
  | cons op ops ih => exact ih _ (inv_step q op hi)

theorem layout_run (q : QueueData) (ops : List Op) (hl : Layout q) : Layout (run q ops) := by
  induction ops generalizing q with
  | nil => exact hl
  | cons op ops ih => exact ih _ (layout_step q op hl)

theorem shutdown_step (q : QueueData) (op : Op) (h : q.shutdown = true) :
    (step q op).2.shutdown = true := by
  cases op <;> simp only [step, enqueue, dequeue, signal_shutdown] <;>
    first | exact h | rfl | (split_ifs <;> simp_all)

theorem shutdown_run (q : QueueData) (ops : List Op) (h : q.shutdown = true) :
    (run q ops).shutdown = true := by
  induction ops generalizing q with
  | nil => exact h
  | cons op ops ih => exact ih _ (shutdown_step q op h)

theorem live_enqueue (q : QueueData) (task : Task) (hl : Layout q) (hi : Inv q)
    (hr : (enqueue q task).1 = true) : live (enqueue q task).2 = live q ++ [task] := by
  unfold Layout at hl
  unfold Inv at hi
  simp only [MAX_TASKS] at hl hi
  obtain ⟨h1, h2, h3, h4⟩ := hi
  unfold enqueue at hr ⊢
  split_ifs at hr ⊢ with hs hc
  simp only [MAX_TASKS, ge_iff_le, not_le] at hc
  have hcount : (q.count + 1) % SIZE_MOD = q.count + 1 := by
    simp only [SIZE_MOD]; omega
  simp only [live, hcount, List.range_succ, List.filterMap_append, MAX_TASKS]
  congr 1
  · apply List.filterMap_congr
    intro i hi
    rw [List.mem_range] at hi
    rw [List.getElem?_set_ne]
    omega
  · simp only [List.filterMap_cons, List.filterMap_nil]
    rw [← h4, List.getElem?_set_self (by omega)]

theorem live_dequeue (q : QueueData) (task : Task) (hl : Layout q) (hi : Inv q)
    (hc : q.count ≠ 0) :
    live q = (dequeue q task).2.1 :: live (dequeue q task).2.2 := by
  unfold Layout at hl
  unfold Inv at hi
  simp only [MAX_TASKS] at hl hi
  obtain ⟨h1, h2, h3, h4⟩ := hi
  obtain ⟨n, hn⟩ : ∃ n, q.count = n + 1 := ⟨q.count - 1, by omega⟩
  have hcount : (q.count + SIZE_MOD - 1) % SIZE_MOD = n := by
    simp only [SIZE_MOD]; omega
  have hh : q.head < q.tasks.length := by omega
  simp only [dequeue, hc, if_false, live, hcount, MAX_TASKS]
  rw [hn, List.range_succ_eq_map, List.filterMap_cons, List.filterMap_map]
  have h0 : q.tasks[(q.head + 0) % 128]? = some (q.tasks.getD q.head task) := by
    have : (q.head + 0) % 128 = q.head := by omega
    rw [this, List.getD_eq_getElem?_getD, List.getElem?_eq_getElem hh]
    rfl
  rw [h0]
  simp only [List.cons.injEq, true_and]
  apply List.filterMap_congr
  intro i _
  simp only [Function.comp, SIZE_MOD]
  have hidx : (q.head + i.succ) % 128
      = ((q.head + 1) % 18446744073709551616 % 128 + i) % 128 := by
    simp only [Nat.succ_eq_add_one]; omega
  rw [hidx]

theorem fifo_run (q : QueueData) (ops : List Op) (hl : Layout q) (hi : Inv q) :
    live q ++ accepted q ops = taken q ops ++ live (run q ops) := by
  induction ops generalizing q with
  | nil => simp [accepted, taken, run]
  | cons op ops ih =>
    cases op with
    | enqueue task =>
      have ih1 := ih _ (layout_enqueue q task hl) (inv_enqueue q task hi)
      simp only [accepted, taken, run, step]
      by_cases hr : (enqueue q task).1 = true
      · rw [if_pos hr, ← ih1, live_enqueue q task hl hi hr]
        simp
      · rw [if_neg hr, ← ih1]
        have hq : (enqueue q task).2 = q := by
          unfold enqueue at hr ⊢
          split_ifs at hr ⊢ <;> simp_all
        rw [hq]
    | dequeue task =>
      have ih1 := ih _ (layout_dequeue q task hl) (inv_dequeue q task hi)
      simp only [accepted, taken, run, step]
      by_cases hc : q.count ≠ 0
      · rw [if_pos hc, live_dequeue q task hl hi hc, List.cons_append, List.cons_append, ih1]
      · rw [if_neg hc, ← ih1]
        have hq : (dequeue q task).2.2 = q := by
          simp only [ne_eq, not_not] at hc
          simp [dequeue, hc]
        rw [hq]
    | is_empty => simpa only [accepted, taken, run, step] using ih q hl hi
    | is_full => simpa only [accepted, taken, run, step] using ih q hl hi
    | size => simpa only [accepted, taken, run, step] using ih q hl hi
    | is_shutdown => simpa only [accepted, taken, run, step] using ih q hl hi
    | signal_shutdown =>
      have ih1 := ih (signal_shutdown q) hl hi
      simpa only [accepted, taken, run, step] using ih1

theorem live_ctor (mem : QueueData) : live (ctor mem true) = [] := by
  simp [live, ctor]

theorem run_append (q : QueueData) (a b : List Op) :
    run q (a ++ b) = run (run q a) b := by
  induction a generalizing q with
  | nil => rfl
  | cons op a ih => exact ih (step q op).2

theorem results_append (q : QueueData) (a b : List Op) :
    results q (a ++ b) = results q a ++ results (run q a) b := by
  induction a generalizing q with
  | nil => rfl
  | cons op a ih =>
    show (step q op).1 :: results (step q op).2 (a ++ b) = _
    rw [ih (step q op).2]
    rfl

theorem enqueue_all (ts : List Task) (q : QueueData) (hl : Layout q) (hi : Inv q)
    (hs : q.shutdown = false) (hc : q.count + ts.length ≤ MAX_TASKS) :
    results q (ts.map Op.enqueue) = ts.map (fun _ => Ret.flag true) ∧
    live (run q (ts.map Op.enqueue)) = live q ++ ts ∧
    (run q (ts.map Op.enqueue)).shutdown = false ∧
    (run q (ts.map Op.enqueue)).count = q.count + ts.length := by
  induction ts generalizing q with
  | nil => simp [results, run, hs]
  | cons t ts ih =>
    simp only [List.length_cons, MAX_TASKS] at hc
    have hlt : ¬ q.count ≥ MAX_TASKS := by simp only [MAX_TASKS]; omega
    have hr : (enqueue q t).1 = true := by simp [enqueue, hs, hlt]
    have hs1 : (enqueue q t).2.shutdown = false := by simp [enqueue, hs, hlt]
    have hc1 : (enqueue q t).2.count = q.count + 1 := by
      simp only [enqueue, hs, hlt, if_false, Bool.false_eq_true, SIZE_MOD]
      omega
    obtain ⟨r1, r2, r3, r4⟩ :=
      ih (enqueue q t).2 (layout_enqueue q t hl) (inv_enqueue q t hi) hs1
        (by simp only [MAX_TASKS]; omega)
    simp only [List.map_cons, results, run, step, hr, List.length_cons]
    refine ⟨by rw [r1], ?_, r3, by omega⟩
    rw [r2, live_enqueue q t hl hi hr]
    simp

theorem dequeue_all (task : Task) (n : Nat) (q : QueueData) (hl : Layout q) (hi : Inv q)
    (hc : q.count = n) :
    results q (List.replicate n (Op.dequeue task))
      = (live q).map (fun t => Ret.fetched true t) ∧
    (run q (List.replicate n (Op.dequeue task))).count = 0 ∧
    (run q (List.replicate n (Op.dequeue task))).shutdown = q.shutdown := by
  induction n generalizing q with
  | zero => simp [results, run, live, hc]
  | succ n ih =>
    have hne : q.count ≠ 0 := by omega
    have hr : (dequeue q task).1 = true := by simp [dequeue, hne]
    have hs1 : (dequeue q task).2.2.shutdown = q.shutdown := by simp [dequeue, hne]
    have hc1 : (dequeue q task).2.2.count = n := by
      have hle := hi.1
      simp only [dequeue, hne, if_false, SIZE_MOD, MAX_TASKS] at hle ⊢
      omega
    obtain ⟨r1, r2, r3⟩ :=
      ih (dequeue q task).2.2 (layout_dequeue q task hl) (inv_dequeue q task hi) hc1
    simp only [List.replicate_succ, results, run, step, hr]
    refine ⟨?_, r2, by rw [r3, hs1]⟩
    rw [r1, live_dequeue q task hl hi hne]
    simp

theorem live_signal_shutdown (q : QueueData) : live (signal_shutdown q) = live q := rfl

/-! ### C1: `dequeue` on an empty queue that is not shut down -/

/-- C1 does not hold of the code: on the freshly initialised (empty, not shut
down) queue, `dequeue` returns true, so it is not the case that every empty
queue without the shutdown flag makes `dequeue` return false. -/
theorem C1_dequeue_empty_running_counterexample :
    ¬ (∀ (q : QueueData) (task : Task),
        q.count = 0 → q.shutdown = false → (dequeue q task).1 = false) := by
  intro h
  have h0 := h (ctor Sample.segment true) Sample.blank rfl rfl
  revert h0
  decide

/-- C1 evaluated on the code: on every queue with `count == 0` and
`shutdown == false`, `dequeue` returns true, the outcome of a successful
dequeue and not the no-task outcome; it copies no slot into the caller's task,
so the caller holds the record it passed in, reported as dequeued, and the
queue data is unchanged. -/
theorem C1_dequeue_empty_running (q : QueueData) (task : Task)
    (hc : q.count = 0) (hs : q.shutdown = false) :
    dequeue q task = (true, task, q) := by
  simp [dequeue, hc, hs]

/-- Witness of C1: the failing input, the freshly initialised queue. -/
theorem C1_dequeue_empty_running_witness :
    dequeue (ctor Sample.segment true) (Sample.job 0)
      = (true, Sample.job 0, ctor Sample.segment true) :=
  C1_dequeue_empty_running (ctor Sample.segment true) (Sample.job 0) rfl rfl

/-! ### C3: one call of `enqueue` -/

/-- C3: on a queue satisfying the invariant, `enqueue` returns false and
changes nothing when `shutdown` is set or `count == 128`; otherwise it returns
true, stores the task in slot `tail`, moves `tail` to `(tail + 1) mod 128`,
adds one to `count`, and leaves `head`, `shutdown` and every other slot as
they were. -/
theorem C3_enqueue_contract (q : QueueData) (task : Task) (hl : Layout q) (hi : Inv q) :
    ((q.shutdown = true ∨ q.count = 128) → enqueue q task = (false, q)) ∧
    (¬ (q.shutdown = true ∨ q.count = 128) →
      (enqueue q task).1 = true ∧
      (enqueue q task).2.tasks[q.tail]? = some task ∧
      (enqueue q task).2.tail = (q.tail + 1) % 128 ∧
      (enqueue q task).2.count = q.count + 1 ∧
      (enqueue q task).2.head = q.head ∧
      (enqueue q task).2.shutdown = q.shutdown ∧
      (enqueue q task).2.tasks.length = q.tasks.length ∧
      ∀ i, i ≠ q.tail → (enqueue q task).2.tasks[i]? = q.tasks[i]?) := by
  unfold Layout at hl
  unfold Inv at hi
  simp only [MAX_TASKS] at hl hi
  constructor
  · rintro (h | h)
    · simp [enqueue, h]
    · simp [enqueue, h]
  · intro h
    have hs : q.shutdown = false := by
      cases hq : q.shutdown
      · rfl
      · exact absurd (Or.inl hq) h
    have hc : ¬ q.count ≥ 128 := by
      intro hge
      exact h (Or.inr (by omega))
    simp only [enqueue, hs, MAX_TASKS, SIZE_MOD, hc, if_false, Bool.false_eq_true]
    refine ⟨trivial, ?_, ?_, ?_, trivial, trivial, ?_, ?_⟩
    · rw [List.getElem?_set_self]
      omega
    · omega
    · omega
    · simp
    · intro i hne
      rw [List.getElem?_set_ne]
      exact fun he => hne he.symm

/-- Witness of C3 on a queue that wraps around the end of the array. -/
theorem C3_enqueue_contract_witness :
    ((Sample.wrapped.shutdown = true ∨ Sample.wrapped.count = 128) →
      enqueue Sample.wrapped (Sample.job 2) = (false, Sample.wrapped)) ∧
    (¬ (Sample.wrapped.shutdown = true ∨ Sample.wrapped.count = 128) →
      (enqueue Sample.wrapped (Sample.job 2)).1 = true ∧
      (enqueue Sample.wrapped (Sample.job 2)).2.tasks[Sample.wrapped.tail]?
        = some (Sample.job 2) ∧
      (enqueue Sample.wrapped (Sample.job 2)).2.tail = (Sample.wrapped.tail + 1) % 128 ∧
      (enqueue Sample.wrapped (Sample.job 2)).2.count = Sample.wrapped.count + 1 ∧
      (enqueue Sample.wrapped (Sample.job 2)).2.head = Sample.wrapped.head ∧
      (enqueue Sample.wrapped (Sample.job 2)).2.shutdown = Sample.wrapped.shutdown ∧
      (enqueue Sample.wrapped (Sample.job 2)).2.tasks.length = Sample.wrapped.tasks.length ∧
      ∀ i, i ≠ Sample.wrapped.tail →
        (enqueue Sample.wrapped (Sample.job 2)).2.tasks[i]? = Sample.wrapped.tasks[i]?) :=
  C3_enqueue_contract Sample.wrapped (Sample.job 2) (by simp [Layout, Sample.wrapped])
    (by decide)

/-! ### C4: one call of `dequeue` on a non-empty queue -/

/-- C4: on a queue satisfying the invariant with `count > 0`, whatever the
shutdown flag, `dequeue` returns true with the task of slot `head`, moves
`head` to `(head + 1) mod 128`, takes one from `count`, and leaves `tail`,
`shutdown` and all slots as they were. -/
theorem C4_dequeue_contract (q : QueueData) (task : Task) (hl : Layout q) (hi : Inv q)
    (hc : 0 < q.count) :
    (dequeue q task).1 = true ∧
    some (dequeue q task).2.1 = q.tasks[q.head]? ∧
    (dequeue q task).2.2.head = (q.head + 1) % 128 ∧
    (dequeue q task).2.2.count + 1 = q.count ∧
    (dequeue q task).2.2.tail = q.tail ∧
    (dequeue q task).2.2.shutdown = q.shutdown ∧
    (dequeue q task).2.2.tasks = q.tasks := by
  unfold Layout at hl
  unfold Inv at hi
  simp only [MAX_TASKS] at hl hi
  have hne : ¬ q.count = 0 := by omega
  have hh : q.head < q.tasks.length := by omega
  simp only [dequeue, hne, if_false, MAX_TASKS, SIZE_MOD]
  refine ⟨trivial, ?_, ?_, ?_, trivial, trivial, trivial⟩
  · rw [List.getD_eq_getElem?_getD, List.getElem?_eq_getElem hh]
    rfl
  · omega
  · omega

/-- Witness of C4 on a queue whose head is the last slot, with shutdown set. -/
theorem C4_dequeue_contract_witness :
    (dequeue (signal_shutdown Sample.wrapped) Sample.blank).1 = true ∧
    some (dequeue (signal_shutdown Sample.wrapped) Sample.blank).2.1
      = (signal_shutdown Sample.wrapped).tasks[(signal_shutdown Sample.wrapped).head]? ∧
    (dequeue (signal_shutdown Sample.wrapped) Sample.blank).2.2.head
      = ((signal_shutdown Sample.wrapped).head + 1) % 128 ∧
    (dequeue (signal_shutdown Sample.wrapped) Sample.blank).2.2.count + 1
      = (signal_shutdown Sample.wrapped).count ∧
    (dequeue (signal_shutdown Sample.wrapped) Sample.blank).2.2.tail
      = (signal_shutdown Sample.wrapped).tail ∧
    (dequeue (signal_shutdown Sample.wrapped) Sample.blank).2.2.shutdown
      = (signal_shutdown Sample.wrapped).shutdown ∧
    (dequeue (signal_shutdown Sample.wrapped) Sample.blank).2.2.tasks
      = (signal_shutdown Sample.wrapped).tasks :=
  C4_dequeue_contract (signal_shutdown Sample.wrapped) Sample.blank
    (by simp [Layout, signal_shutdown, Sample.wrapped]) (by decide) (by decide)

/-! ### C2: first in, first out -/

/-- C2: from a freshly initialised queue, for every finite sequence of
serialized calls (enqueue and dequeue in any interleaving, and also the
queries and signal_shutdown), the tasks handed out by the dequeue calls that
found the queue non-empty are, in order, an initial segment of the tasks
passed to the enqueue calls that returned true. -/
theorem C2_fifo (mem : QueueData) (ops : List Op) (hm : Layout mem) :
    taken (ctor mem true) ops <+: accepted (ctor mem true) ops := by
  have hl : Layout (ctor mem true) := by simpa [Layout, ctor] using hm
  have hi : Inv (ctor mem true) := by simp [Inv, ctor]
  have h := fifo_run (ctor mem true) ops hl hi
  rw [live_ctor, List.nil_append] at h
  exact ⟨live (run (ctor mem true) ops), h.symm⟩

/-- Witness of C2: 130 enqueue/dequeue pairs, which carry both indices past
slot 127, followed by three enqueues and a dequeue. -/
theorem C2_fifo_witness :
    taken (ctor Sample.segment true)
        ((List.range 130).flatMap (fun n => [Op.enqueue (Sample.job n), Op.dequeue Sample.blank])
          ++ [Op.enqueue (Sample.job 200), Op.enqueue (Sample.job 201),
              Op.dequeue Sample.blank, Op.enqueue (Sample.job 202)])
      <+: accepted (ctor Sample.segment true)
        ((List.range 130).flatMap (fun n => [Op.enqueue (Sample.job n), Op.dequeue Sample.blank])
          ++ [Op.enqueue (Sample.job 200), Op.enqueue (Sample.job 201),
              Op.dequeue Sample.blank, Op.enqueue (Sample.job 202)]) :=
  C2_fifo Sample.segment _ (by simp [Layout, Sample.segment])

/-! ### C5: the queue invariant -/

/-- C5: the invariant (`count <= 128`, `head < 128`, `tail < 128`,
`tail == (head + count) mod 128`) holds after initialisation by the owner, is
preserved by enqueue, dequeue and signal_shutdown, and so holds in every state
reached from the initialised queue; in a state satisfying it the slot indices
`head` and `tail` used by dequeue and enqueue lie inside the array, and the
`size_t` counter neither wraps below zero in dequeue nor exceeds 128 in
enqueue. -/
theorem C5_queue_invariant (mem q : QueueData) (hm : Layout mem) (hl : Layout q)
    (hi : Inv q) :
    Inv (ctor mem true) ∧
    (∀ task, Inv (enqueue q task).2) ∧
    (∀ task, Inv (dequeue q task).2.2) ∧
    Inv (signal_shutdown q) ∧
    (∀ ops, Inv (run (ctor mem true) ops) ∧
      (run (ctor mem true) ops).head < (run (ctor mem true) ops).tasks.length ∧
      (run (ctor mem true) ops).tail < (run (ctor mem true) ops).tasks.length) ∧
    q.head < q.tasks.length ∧ q.tail < q.tasks.length ∧
    (∀ task, (dequeue q task).2.2.count ≤ q.count) ∧
    (∀ task, (enqueue q task).2.count ≤ 128) := by
  have hi0 : Inv (ctor mem true) := by simp [Inv, ctor]
  have hl0 : Layout (ctor mem true) := by simpa [Layout, ctor] using hm
  refine ⟨hi0, fun t => inv_enqueue q t hi, fun t => inv_dequeue q t hi, hi, ?_, ?_, ?_, ?_, ?_⟩
  · intro ops
    have h1 := inv_run _ ops hi0
    have h2 := layout_run _ ops hl0
    refine ⟨h1, ?_, ?_⟩
    · unfold Layout at h2; unfold Inv at h1; omega
    · unfold Layout at h2; unfold Inv at h1; omega
  · unfold Layout at hl; unfold Inv at hi; omega
  · unfold Layout at hl; unfold Inv at hi; omega
  · intro t
    have h := inv_dequeue q t hi
    unfold Inv at hi
    unfold dequeue
    split_ifs
    · exact le_refl _
    · simp only [SIZE_MOD, MAX_TASKS] at *; omega
  · intro t
    exact (inv_enqueue q t hi).1

/-- Witness of C5 on the zero-filled segment and on a queue that wraps. -/
theorem C5_queue_invariant_witness :
    Inv (ctor Sample.segment true) ∧
    (∀ task, Inv (enqueue Sample.wrapped task).2) ∧
    (∀ task, Inv (dequeue Sample.wrapped task).2.2) ∧
    Inv (signal_shutdown Sample.wrapped) ∧
    (∀ ops, Inv (run (ctor Sample.segment true) ops) ∧
      (run (ctor Sample.segment true) ops).head
        < (run (ctor Sample.segment true) ops).tasks.length ∧
      (run (ctor Sample.segment true) ops).tail
        < (run (ctor Sample.segment true) ops).tasks.length) ∧
    Sample.wrapped.head < Sample.wrapped.tasks.length ∧
    Sample.wrapped.tail < Sample.wrapped.tasks.length ∧
    (∀ task, (dequeue Sample.wrapped task).2.2.count ≤ Sample.wrapped.count) ∧
    (∀ task, (enqueue Sample.wrapped task).2.count ≤ 128) :=
  C5_queue_invariant Sample.segment Sample.wrapped (by simp [Layout, Sample.segment])
    (by simp [Layout, Sample.wrapped]) (by decide)

/-! ### C6: no enqueue after shutdown -/

/-- C6: in every state reached by any sequence of calls after a call of
signal_shutdown, whatever the number of queued tasks, `enqueue` returns false
and leaves the queue data (head, tail, count, slots) unchanged. -/
theorem C6_enqueue_after_shutdown (q : QueueData) (ops : List Op) (task : Task) :
    enqueue (run (signal_shutdown q) ops) task = (false, run (signal_shutdown q) ops) := by
  have h : (run (signal_shutdown q) ops).shutdown = true := shutdown_run _ ops rfl
  simp [enqueue, h]

/-! ### C7: filling the queue, shutting down and draining -/

/-- C7: on a freshly initialised queue and for every list `ts` of 128 tasks,
the 128 enqueue calls return true, a 129th enqueue returns false, after
signal_shutdown one more enqueue returns false, the next 128 dequeue calls
return true and hand out the tasks of `ts` in order, and a 129th dequeue
returns false, leaving the caller's task untouched, with is_shutdown true. -/
theorem C7_capacity_and_drain (mem : QueueData) (ts : List Task) (t129 t130 task : Task)
    (hm : Layout mem) (hts : ts.length = 128) :
    results (ctor mem true)
        (ts.map Op.enqueue ++ [Op.enqueue t129, Op.signal_shutdown, Op.enqueue t130]
          ++ List.replicate 128 (Op.dequeue task) ++ [Op.dequeue task, Op.is_shutdown])
      = ts.map (fun _ => Ret.flag true) ++ [Ret.flag false, Ret.done, Ret.flag false]
          ++ ts.map (fun t => Ret.fetched true t) ++ [Ret.fetched false task, Ret.flag true] := by
  have hl0 : Layout (ctor mem true) := by simpa [Layout, ctor] using hm
  have hi0 : Inv (ctor mem true) := by simp [Inv, ctor]
  obtain ⟨e1, e2, e3, e4⟩ :=
    enqueue_all ts (ctor mem true) hl0 hi0 (by simp [ctor]) (by simp [ctor, hts])
  rw [live_ctor, List.nil_append] at e2
  have e4 : (run (ctor mem true) (ts.map Op.enqueue)).count = 128 := by
    rw [e4, hts]; simp [ctor]
  generalize hq1 : run (ctor mem true) (ts.map Op.enqueue) = q1 at e2 e3 e4
  have hl1 : Layout q1 := hq1 ▸ layout_run _ _ hl0
  have hi1 : Inv q1 := hq1 ▸ inv_run _ _ hi0
  have hfull : enqueue q1 t129 = (false, q1) := by simp [enqueue, e3, e4]
  have hshut : enqueue (signal_shutdown q1) t130 = (false, signal_shutdown q1) := by
    simp [enqueue, signal_shutdown]
  have hmid : run q1 [Op.enqueue t129, Op.signal_shutdown, Op.enqueue t130]
      = signal_shutdown q1 := by
    simp [run, step, hfull, hshut]
  have hmidr : results q1 [Op.enqueue t129, Op.signal_shutdown, Op.enqueue t130]
      = [Ret.flag false, Ret.done, Ret.flag false] := by
    simp [results, step, hfull, hshut]
  obtain ⟨d1, d2, d3⟩ :=
    dequeue_all task 128 (signal_shutdown q1) hl1 hi1 e4
  rw [live_signal_shutdown, e2] at d1
  generalize hq3 : run (signal_shutdown q1) (List.replicate 128 (Op.dequeue task)) = q3
    at d2 d3
  have d3 : q3.shutdown = true := by rw [d3]; rfl
  have hlast : results q3 [Op.dequeue task, Op.is_shutdown]
      = [Ret.fetched false task, Ret.flag true] := by
    simp [results, step, dequeue, is_shutdown, d2, d3]
  simp only [results_append, run_append, hq1, e1, hmid, hmidr, d1, hq3, hlast]

/-- Witness of C7 with 128 distinct jobs. -/
theorem C7_capacity_and_drain_witness :
    results (ctor Sample.segment true)
        ((List.map Sample.job (List.range 128)).map Op.enqueue
          ++ [Op.enqueue (Sample.job 128), Op.signal_shutdown, Op.enqueue (Sample.job 129)]
          ++ List.replicate 128 (Op.dequeue Sample.blank)
          ++ [Op.dequeue Sample.blank, Op.is_shutdown])
      = (List.map Sample.job (List.range 128)).map (fun _ => Ret.flag true)
          ++ [Ret.flag false, Ret.done, Ret.flag false]
          ++ (List.map Sample.job (List.range 128)).map (fun t => Ret.fetched true t)
          ++ [Ret.fetched false Sample.blank, Ret.flag true] :=
  C7_capacity_and_drain Sample.segment (List.map Sample.job (List.range 128)) (Sample.job 128)
    (Sample.job 129) Sample.blank (by simp [Layout, Sample.segment]) (by simp)

/-! ### C8: the shutdown flag is never reset -/

/-- C8: once `shutdown` is true it is true after every sequence of enqueue,
dequeue, signal_shutdown, is_empty, is_full, size and is_shutdown calls, and
so after each single such call. -/
theorem C8_shutdown_monotonic (q : QueueData) (ops : List Op) (h : q.shutdown = true) :
    (run q ops).shutdown = true ∧ ∀ op, (step (run q ops) op).2.shutdown = true :=
  ⟨shutdown_run q ops h, fun op => shutdown_step _ op (shutdown_run q ops h)⟩

/-- Witness of C8: a shut-down queue holding two tasks, drained and probed. -/
theorem C8_shutdown_monotonic_witness :
    (run (signal_shutdown Sample.wrapped)
        [Op.dequeue Sample.blank, Op.enqueue (Sample.job 5), Op.is_empty, Op.dequeue Sample.blank,
          Op.dequeue Sample.blank, Op.size, Op.is_full, Op.is_shutdown]).shutdown = true ∧
      ∀ op, (step (run (signal_shutdown Sample.wrapped)
        [Op.dequeue Sample.blank, Op.enqueue (Sample.job 5), Op.is_empty, Op.dequeue Sample.blank,
          Op.dequeue Sample.blank, Op.size, Op.is_full, Op.is_shutdown]) op).2.shutdown = true :=
  C8_shutdown_monotonic (signal_shutdown Sample.wrapped) _ rfl

end TaskQueue

/-! ## Properties of the cipher -/

namespace Crypto

theorem push_loop (f : Nat → Nat) (l : List Nat) (c : Crypto) :
    l.foldl (fun c i => { c with key_ := c.key_ ++ [f i] }) c
      = { c with key_ := c.key_ ++ l.map f } := by
  induction l generalizing c with
  | nil => simp
  | cons i l ih => simp [List.foldl_cons, ih]

theorem expandKey_eq (key : List Nat) :
    expandKey { key_ := [], key_index_ := 0 } key
      = { key_ := (List.range 256).map (fun i => to_uint8 (key.getD (i % key.length) 0)),
          key_index_ := 0 } := by
  unfold expandKey
  rw [push_loop (fun i => to_uint8 (key.getD (i % key.length) 0))]
  simp

theorem expandKey_byte (key : List Nat) (i : Nat) :
    (expandKey { key_ := [], key_index_ := 0 } key).key_.getD i 0 < 256 := by
  rw [expandKey_eq, List.getD_eq_getElem?_getD, List.getElem?_map]
  cases h : (List.range 256)[i]? with
  | none => simp
  | some j => simp only [Option.map_some', Option.getD_some, to_uint8]; omega

theorem xor_loop (f : Nat → Nat → Nat) (n : Nat) (d : List Nat) :
    ((List.range n).foldl (fun d i => d.set i (f i (d.getD i 0))) d).length = d.length ∧
    ∀ j, ((List.range n).foldl (fun d i => d.set i (f i (d.getD i 0))) d)[j]?
      = if j < n then (d[j]?).map (f j) else d[j]? := by
  induction n with
  | zero => simp
  | succ n ih =>
    obtain ⟨ih1, ih2⟩ := ih
    rw [List.range_succ, List.foldl_append]
    simp only [List.foldl_cons, List.foldl_nil, List.length_set]
    refine ⟨ih1, fun j => ?_⟩
    rw [List.getElem?_set, ih1]
    by_cases hj : n = j
    · subst hj
      by_cases hlt : n < d.length
      · rw [if_pos rfl, if_pos hlt, List.getD_eq_getElem?_getD, ih2 n, if_neg (lt_irrefl n),
          if_pos (Nat.lt_succ_self n), List.getElem?_eq_getElem hlt]
        rfl
      · have : d[n]? = none := List.getElem?_eq_none (by omega)
        simp [hlt, this]
    · rw [if_neg hj, ih2]
      by_cases h1 : j < n
      · simp [h1, Nat.lt_succ_of_lt h1]
      · have : ¬ j < n + 1 := by omega
        simp [h1, this]

theorem process_length (c : Crypto) (data : List Nat) :
    (process c data).2.length = data.length :=
  (xor_loop
    (fun i a => (a ^^^ c.key_.getD (((c.key_index_ + i) % SIZE_MOD) % c.key_.length) 0) % 256)
    data.length data).1

theorem process_getElem? (c : Crypto) (data : List Nat) (j : Nat) :
    (process c data).2[j]?
      = (data[j]?).map (fun a =>
          (a ^^^ c.key_.getD (((c.key_index_ + j) % SIZE_MOD) % c.key_.length) 0) % 256) := by
  have h := (xor_loop
    (fun i a => (a ^^^ c.key_.getD (((c.key_index_ + i) % SIZE_MOD) % c.key_.length) 0) % 256)
    data.length data).2 j
  unfold process
  rw [h]
  split_ifs with hj
  · rfl
  · rw [List.getElem?_eq_none (by omega)]
    rfl

theorem xor_byte_cancel (a k : Nat) (ha : a < 256) (hk : k < 256) :
    ((a ^^^ k) % 256 ^^^ k) % 256 = a := by
  have h : a ^^^ k < 2 ^ 8 := Nat.xor_lt_two_pow (by simpa using ha) (by simpa using hk)
  have h8 : (2 : Nat) ^ 8 = 256 := by norm_num
  rw [h8] at h
  rw [Nat.mod_eq_of_lt h, Nat.xor_cancel_right, Nat.mod_eq_of_lt ha]

/-! ### C9: encrypting and then decrypting with the same key -/

/-- C9: for every non-empty key and every sequence of bytes `data`, of any
length, encrypting `data` with a fresh `Crypto` built from the key and
decrypting the outcome with another fresh `Crypto` built from the same key
gives back exactly `data`; neither constructor throws. -/
theorem C9_round_trip (key data : List Nat) (hk : key ≠ []) (hd : ∀ b ∈ data, b < 256) :
    round_trip key data = Except.ok data := by
  have hc : ctor key = Except.ok (expandKey { key_ := [], key_index_ := 0 } key) := by
    cases key with
    | nil => exact absurd rfl hk
    | cons a l => rfl
  simp only [round_trip, hc, encrypt, decrypt]
  congr 1
  apply List.ext_getElem?
  intro j
  rw [process_getElem?, process_getElem?, Option.map_map]
  cases hj : data[j]? with
  | none => rfl
  | some a =>
    have ha : a < 256 := hd a (List.getElem?_mem hj)
    simp only [Option.map_some', Function.comp]
    rw [xor_byte_cancel a _ ha (expandKey_byte key _)]

/-- Witness of C9: a three-byte key and 300 bytes of data, more than the 256
bytes of the expanded key. -/
theorem C9_round_trip_witness :
    round_trip [107, 101, 121] (List.replicate 300 65) = Except.ok (List.replicate 300 65) :=
  C9_round_trip [107, 101, 121] (List.replicate 300 65) (by decide)
    (fun b hb => by rw [List.eq_of_mem_replicate hb]; decide)

end Crypto

/-! ## Properties of the task record -/

namespace Task

theorem strncpy_nil (n : Nat) (dest : List Nat) (hn : n ≤ dest.length) :
    strncpy dest [] n = List.replicate n 0 ++ dest.drop n := by
  induction n generalizing dest with
  | zero => simp [strncpy]
  | succ n ih =>
    cases dest with
    | nil => simp at hn
    | cons d dest =>
      simp only [List.length_cons, Nat.add_le_add_iff_right] at hn
      simp [strncpy, ih dest hn, List.replicate_succ]

theorem strncpy_c_str (n : Nat) (dest s : List Nat) (hn : n ≤ dest.length)
    (hs : ∀ b ∈ s, b ≠ 0) :
    strncpy dest (c_str s) n
      = s.take n ++ List.replicate (n - s.length) 0 ++ dest.drop n := by
  induction n generalizing dest s with
  | zero => simp [strncpy]
  | succ n ih =>
    cases dest with
    | nil => simp at hn
    | cons d dest =>
      simp only [List.length_cons, Nat.add_le_add_iff_right] at hn
      cases s with
      | nil =>
        simp [c_str, strncpy, strncpy_nil n dest hn, List.replicate_succ]
      | cons c s =>
        have hc : c ≠ 0 := hs c (List.mem_cons_self c s)
        have hs1 : ∀ b ∈ s, b ≠ 0 := fun b hb => hs b (List.mem_cons_of_mem c hb)
        have h := ih dest s hn hs1
        simp only [c_str] at h
        simp [c_str, strncpy, hc, h]

theorem set_last (n : Nat) (l : List Nat) (hl : l.length = n + 1) :
    l.set n 0 = l.take n ++ [0] := by
  induction n generalizing l with
  | zero =>
    match l, hl with
    | [a], _ => rfl
  | succ n ih =>
    cases l with
    | nil => simp at hl
    | cons a l =>
      simp only [List.length_cons, Nat.add_right_cancel_iff] at hl
      simp [List.set, ih l hl]

theorem cstring_append_zero (a r : List Nat) (ha : ∀ b ∈ a, b ≠ 0) :
    cstring (a ++ 0 :: r) = a := by
  unfold cstring
  induction a with
  | nil => simp
  | cons x a ih =>
    have hx : x ≠ 0 := ha x (List.mem_cons_self x a)
    have ha1 : ∀ b ∈ a, b ≠ 0 := fun b hb => ha b (List.mem_cons_of_mem x hb)
    have ih1 := ih ha1
    simp only [List.cons_append, List.takeWhile_cons, hx, ne_eq, not_false_eq_true,
      decide_True, if_true]
    rw [ih1]

/-- The buffer written by a setter: `strncpy` of at most `cap` characters into
a buffer of `cap + 1` bytes, then a NUL in the last byte. -/
theorem set_buffer (cap : Nat) (dest s : List Nat) (hl : dest.length = cap + 1)
    (hs : ∀ b ∈ s, b ≠ 0) :
    (strncpy dest (c_str s) cap).set cap 0
        = s.take cap ++ List.replicate (cap + 1 - min s.length cap) 0 ∧
    cstring ((strncpy dest (c_str s) cap).set cap 0) = s.take cap := by
  have hcopy := strncpy_c_str cap dest s (by omega) hs
  have hlen : (strncpy dest (c_str s) cap).length = cap + 1 := by
    rw [hcopy]
    simp only [List.length_append, List.length_take, List.length_replicate, List.length_drop]
    omega
  have htake : (strncpy dest (c_str s) cap).take cap
      = s.take cap ++ List.replicate (cap - s.length) 0 := by
    rw [hcopy, List.append_assoc]
    have h1 : (s.take cap ++ List.replicate (cap - s.length) 0).length = cap := by
      simp only [List.length_append, List.length_take, List.length_replicate]
      omega
    rw [← List.append_assoc, List.take_append_eq_append_take, h1, Nat.sub_self, List.take_zero,
      List.append_nil, List.take_of_length_le (le_of_eq h1)]
  have hbuf : (strncpy dest (c_str s) cap).set cap 0
      = s.take cap ++ 0 :: List.replicate (cap - s.length) 0 := by
    rw [set_last cap _ hlen, htake, List.append_assoc]
    congr 1
    rw [← List.replicate_succ, List.replicate_succ']
  have hcount : cap + 1 - min s.length cap = (cap - s.length) + 1 := by omega
  refine ⟨?_, ?_⟩
  · rw [hbuf, hcount, List.replicate_succ]
  · rw [hbuf]
    exact cstring_append_zero _ _ (fun b hb => hs b (List.mem_of_mem_take hb))

/-! ### C10: truncation in the setters of `Task` -/

/-- C10: for every string `s` without NUL bytes, after `set_input(s)` the
buffer `input_file` holds the first `min(|s|, 255)` bytes of `s` followed by
NUL bytes up to its 256 bytes, so the C string in it is that initial segment of
`s`: exactly 255 bytes when `s` is longer than 255, and `s` itself otherwise.
The same holds for `set_output` with 255 and for `set_key` with 63. -/
theorem C10_setters_truncate (t : Task) (s : List Nat) (ht : t.WellSized)
    (hs : ∀ b ∈ s, b ≠ 0) :
    ((set_input t s).input_file = s.take 255 ++ List.replicate (256 - min s.length 255) 0 ∧
      cstring (set_input t s).input_file = s.take 255 ∧
      (255 < s.length → (cstring (set_input t s).input_file).length = 255) ∧
      (s.length ≤ 255 → cstring (set_input t s).input_file = s)) ∧
    ((set_output t s).output_file = s.take 255 ++ List.replicate (256 - min s.length 255) 0 ∧
      cstring (set_output t s).output_file = s.take 255 ∧
      (255 < s.length → (cstring (set_output t s).output_file).length = 255) ∧
      (s.length ≤ 255 → cstring (set_output t s).output_file = s)) ∧
    ((set_key t s).key = s.take 63 ++ List.replicate (64 - min s.length 63) 0 ∧
      cstring (set_key t s).key = s.take 63 ∧
      (63 < s.length → (cstring (set_key t s).key).length = 63) ∧
      (s.length ≤ 63 → cstring (set_key t s).key = s)) := by
  obtain ⟨h1, h2, h3⟩ := ht
  have a := set_buffer 255 t.input_file s h1 hs
  have b := set_buffer 255 t.output_file s h2 hs
  have c := set_buffer 63 t.key s h3 hs
  refine ⟨⟨a.1, a.2, ?_, ?_⟩, ⟨b.1, b.2, ?_, ?_⟩, ⟨c.1, c.2, ?_, ?_⟩⟩
  · intro h
    show (cstring ((strncpy t.input_file (c_str s) 255).set 255 0)).length = 255
    rw [a.2, List.length_take]; omega
  · intro h
    show cstring ((strncpy t.input_file (c_str s) 255).set 255 0) = s
    rw [a.2, List.take_of_length_le h]
  · intro h
    show (cstring ((strncpy t.output_file (c_str s) 255).set 255 0)).length = 255
    rw [b.2, List.length_take]; omega
  · intro h
    show cstring ((strncpy t.output_file (c_str s) 255).set 255 0) = s
    rw [b.2, List.take_of_length_le h]
  · intro h
    show (cstring ((strncpy t.key (c_str s) 63).set 63 0)).length = 63
    rw [c.2, List.length_take]; omega
  · intro h
    show cstring ((strncpy t.key (c_str s) 63).set 63 0) = s
    rw [c.2, List.take_of_length_le h]

/-- Witness of C10: a path of 300 bytes, longer than every buffer. -/
theorem C10_setters_truncate_witness :
    ((set_input Sample.blank (List.replicate 300 47)).input_file
        = (List.replicate 300 47).take 255
          ++ List.replicate (256 - min (List.replicate 300 47).length 255) 0 ∧
      cstring (set_input Sample.blank (List.replicate 300 47)).input_file
        = (List.replicate 300 47).take 255 ∧
      (255 < (List.replicate 300 47).length →
        (cstring (set_input Sample.blank (List.replicate 300 47)).input_file).length = 255) ∧
      ((List.replicate 300 47).length ≤ 255 →
        cstring (set_input Sample.blank (List.replicate 300 47)).input_file
          = List.replicate 300 47)) ∧
    ((set_output Sample.blank (List.replicate 300 47)).output_file
        = (List.replicate 300 47).take 255
          ++ List.replicate (256 - min (List.replicate 300 47).length 255) 0 ∧
      cstring (set_output Sample.blank (List.replicate 300 47)).output_file
        = (List.replicate 300 47).take 255 ∧
      (255 < (List.replicate 300 47).length →
        (cstring (set_output Sample.blank (List.replicate 300 47)).output_file).length = 255) ∧
      ((List.replicate 300 47).length ≤ 255 →
        cstring (set_output Sample.blank (List.replicate 300 47)).output_file
          = List.replicate 300 47)) ∧
    ((set_key Sample.blank (List.replicate 300 47)).key
        = (List.replicate 300 47).take 63
          ++ List.replicate (64 - min (List.replicate 300 47).length 63) 0 ∧
      cstring (set_key Sample.blank (List.replicate 300 47)).key
        = (List.replicate 300 47).take 63 ∧
      (63 < (List.replicate 300 47).length →
        (cstring (set_key Sample.blank (List.replicate 300 47)).key).length = 63) ∧
      ((List.replicate 300 47).length ≤ 63 →
        cstring (set_key Sample.blank (List.replicate 300 47)).key
          = List.replicate 300 47)) :=
  C10_setters_truncate Sample.blank (List.replicate 300 47)
    ⟨List.length_replicate 256 0, List.length_replicate 256 0, List.length_replicate 64 0⟩
    (fun b hb => by rw [List.eq_of_mem_replicate hb]; decide)

end Task

/-! ## The return value of `dequeue` -/

namespace TaskQueue

/-! ### C16: when `dequeue` returns false -/

/-- C16: for every queue state (in particular every one satisfying the
invariant), `dequeue` returns false exactly when `count == 0` and `shutdown` is
true; and whenever `count == 0` the call leaves the queue data and the caller's
task unchanged. -/
theorem C16_dequeue_return (q : QueueData) (task : Task) :
    ((dequeue q task).1 = false ↔ (q.count = 0 ∧ q.shutdown = true)) ∧
    (q.count = 0 → (dequeue q task).2.1 = task ∧ (dequeue q task).2.2 = q) := by
  unfold dequeue
  by_cases hc : q.count = 0
  · simp [hc]
  · simp [hc]

end TaskQueue

/-! ## The keystream position of the cipher -/

namespace Crypto

theorem ctor_ok (key : List Nat) (hk : key ≠ []) :
    ctor key = Except.ok (expandKey { key_ := [], key_index_ := 0 } key) := by
  cases key with
  | nil => exact absurd rfl hk
  | cons a l => rfl

theorem expandKey_length (key : List Nat) :
    (expandKey { key_ := [], key_index_ := 0 } key).key_.length = 256 := by
  rw [expandKey_eq]; simp

theorem process_append (c : Crypto) (A B : List Nat) (hlen : c.key_.length = 256) :
    (process c A).2 ++ (process (process c A).1 B).2 = (process c (A ++ B)).2 ∧
    (process (process c A).1 B).1 = (process c (A ++ B)).1 := by
  have hk1 : (process c A).1.key_ = c.key_ := rfl
  have hi1 : (process c A).1.key_index_
      = ((c.key_index_ + A.length) % SIZE_MOD) % c.key_.length := rfl
  constructor
  · apply List.ext_getElem?
    intro j
    rw [process_getElem?]
    by_cases hj : j < A.length
    · have hj1 : j < (process c A).2.length := by rw [process_length]; exact hj
      rw [List.getElem?_append_left hj1, process_getElem?, List.getElem?_append_left hj]
    · have hj1 : (process c A).2.length ≤ j := by rw [process_length]; omega
      rw [List.getElem?_append_right hj1, process_getElem?, process_length,
        List.getElem?_append_right (by omega), hk1, hi1, hlen]
      congr 1
      funext a
      have hidx : (((c.key_index_ + A.length) % SIZE_MOD % 256 + (j - A.length)) % SIZE_MOD) % 256
          = ((c.key_index_ + j) % SIZE_MOD) % 256 := by
        simp only [SIZE_MOD]; omega
      rw [hidx]
  · show ({ (process c A).1 with key_index_ := _ } : Crypto) = { c with key_index_ := _ }
    rw [hk1, hi1, hlen]
    have hidx : (((c.key_index_ + A.length) % SIZE_MOD % 256 + B.length) % SIZE_MOD) % 256
        = ((c.key_index_ + (A ++ B).length) % SIZE_MOD) % 256 := by
      simp only [SIZE_MOD, List.length_append]; omega
    simp only [hidx]
    rfl

/-! ### C13: two calls of `process` against one call -/

/-- C13: for every non-empty key the constructor succeeds, and for all byte
sequences `A` and `B`, processing `A` and then `B` by two consecutive calls on
the object gives the bytes (and leaves the keystream position) that one call
on `A ++ B` gives from the fresh object; each call returns a buffer as long as
the one it was given. -/
theorem C13_keystream_carried (key A B : List Nat) (hk : key ≠ []) :
    ∃ c, ctor key = Except.ok c ∧
      (process c A).2 ++ (process (process c A).1 B).2 = (process c (A ++ B)).2 ∧
      (process (process c A).1 B).1 = (process c (A ++ B)).1 ∧
      (process c A).2.length = A.length ∧
      (process (process c A).1 B).2.length = B.length ∧
      (process c (A ++ B)).2.length = (A ++ B).length :=
  ⟨expandKey { key_ := [], key_index_ := 0 } key, ctor_ok key hk,
    (process_append _ A B (expandKey_length key)).1,
    (process_append _ A B (expandKey_length key)).2,
    process_length _ A, process_length _ B, process_length _ (A ++ B)⟩

/-- Witness of C13: 300 bytes, which take the position once around the
expanded key, followed by three more. -/
theorem C13_keystream_carried_witness :
    ∃ c, ctor [107, 101, 121] = Except.ok c ∧
      (process c (List.replicate 300 65)).2
          ++ (process (process c (List.replicate 300 65)).1 [1, 2, 3]).2
        = (process c (List.replicate 300 65 ++ [1, 2, 3])).2 ∧
      (process (process c (List.replicate 300 65)).1 [1, 2, 3]).1
        = (process c (List.replicate 300 65 ++ [1, 2, 3])).1 ∧
      (process c (List.replicate 300 65)).2.length = (List.replicate 300 65).length ∧
      (process (process c (List.replicate 300 65)).1 [1, 2, 3]).2.length = [1, 2, 3].length ∧
      (process c (List.replicate 300 65 ++ [1, 2, 3])).2.length
        = (List.replicate 300 65 ++ [1, 2, 3]).length :=
  C13_keystream_carried [107, 101, 121] (List.replicate 300 65) [1, 2, 3] (by decide)

end Crypto

/-! ## Properties of the worker loop -/

namespace ProcessPool

open TaskQueue

theorem spurious_wake (process_file : Task → Bool) (stack : Task) (w : Worker) (s : Shared)
    (hc : s.queue.count = 0) (hs : s.queue.shutdown = false) :
    worker_iteration process_file stack w s = ({ w with pc := Pc.exited }, s) := by
  have hd : dequeue s.queue (Task.ctor stack) = (true, Task.ctor stack, s.queue) := by
    simp [dequeue, hc, hs]
  have ht : (Task.ctor stack).type = TaskType.TERMINATE := rfl
  simp [worker_iteration, worker_advance, worker_step, is_shutdown, hs, hd, ht]

/-! ### C11: a wake-up on an empty queue that is not shut down -/

/-- C11 evaluated on the code: a worker that returns from `wait()` on the
freshly initialised queue (empty, shutdown not set) leaves the loop, it is not
back in `wait()`; it has not called the task-processing function and the
shared state, `done_sem` included, is as before. -/
theorem C11_spurious_wake_exits :
    (worker_iteration (fun _ => true) Sample.blank { pc := Pc.wait, processed := [] }
        { queue := ctor Sample.segment true, task_sem := 0, done_sem := 0 }).1.pc = Pc.exited ∧
    (worker_iteration (fun _ => true) Sample.blank { pc := Pc.wait, processed := [] }
        { queue := ctor Sample.segment true, task_sem := 0, done_sem := 0 }).1.pc ≠ Pc.wait ∧
    (worker_iteration (fun _ => true) Sample.blank { pc := Pc.wait, processed := [] }
        { queue := ctor Sample.segment true, task_sem := 0, done_sem := 0 }).1.processed = [] ∧
    (worker_iteration (fun _ => true) Sample.blank { pc := Pc.wait, processed := [] }
        { queue := ctor Sample.segment true, task_sem := 0, done_sem := 0 }).2
      = { queue := ctor Sample.segment true, task_sem := 0, done_sem := 0 } := by
  rw [spurious_wake _ _ _ _ rfl rfl]
  simp

/-! ### C12: a failed task does not stop the worker -/

/-- C12: in every iteration of the worker loop that dequeues a task of kind
ENCRYPT or DECRYPT, whatever the task-processing function returns for it, the
worker calls that function once on the task, posts `done_sem` exactly once
and is back at the top of the loop, in `wait()`. -/
theorem C12_task_failure_continues (process_file : Task → Bool) (stack : Task) (w : Worker)
    (s : Shared) (hs : s.queue.shutdown = false)
    (ht : (dequeue s.queue (Task.ctor stack)).2.1.type = TaskType.ENCRYPT ∨
      (dequeue s.queue (Task.ctor stack)).2.1.type = TaskType.DECRYPT) :
    worker_iteration process_file stack w s
      = ({ pc := Pc.wait
           processed := w.processed ++
             [((dequeue s.queue (Task.ctor stack)).2.1,
               process_file (dequeue s.queue (Task.ctor stack)).2.1)] },
         { queue := (dequeue s.queue (Task.ctor stack)).2.2
           task_sem := s.task_sem
           done_sem := s.done_sem + 1 }) := by
  have hr : (dequeue s.queue (Task.ctor stack)).1 = true := by
    unfold dequeue
    split_ifs <;> simp [hs]
  have hn : (dequeue s.queue (Task.ctor stack)).2.1.type ≠ TaskType.TERMINATE := by
    rcases ht with h | h <;> rw [h] <;> decide
  simp [worker_iteration, worker_advance, worker_step, is_shutdown, hs, hr, hn]

/-- Witness of C12: the task-processing function fails on the encryption job
at the head of a queue that wraps. -/
theorem C12_task_failure_continues_witness :
    worker_iteration (fun _ => false) Sample.blank { pc := Pc.wait, processed := [] }
        { queue := Sample.wrapped, task_sem := 1, done_sem := 0 }
      = ({ pc := Pc.wait
           processed := [] ++
             [((dequeue Sample.wrapped (Task.ctor Sample.blank)).2.1,
               (fun _ => false) (dequeue Sample.wrapped (Task.ctor Sample.blank)).2.1)] },
         { queue := (dequeue Sample.wrapped (Task.ctor Sample.blank)).2.2
           task_sem := 1
           done_sem := 0 + 1 }) :=
  C12_task_failure_continues (fun _ => false) Sample.blank { pc := Pc.wait, processed := [] }
    { queue := Sample.wrapped, task_sem := 1, done_sem := 0 } rfl
    (Or.inl (by decide))

/-! ### The system of producer and workers -/

theorem total_nil (f : Pc → Nat) : total f [] = 0 := rfl

theorem total_cons (f : Pc → Nat) (w : Worker) (ws : List Worker) :
    total f (w :: ws) = f w.pc + total f ws := by
  simp [total]

theorem total_set (f : Pc → Nat) (ws : List Worker) (i : Nat) (w w' : Worker)
    (h : ws[i]? = some w) :
    total f (ws.set i w') + f w.pc = total f ws + f w'.pc := by
  induction ws generalizing i with
  | nil => simp at h
  | cons x ws ih =>
    cases i with
    | zero =>
      simp only [List.getElem?_cons_zero, Option.some.injEq] at h
      subst h
      simp only [List.set_cons_zero, total_cons]
      omega
    | succ i =>
      simp only [List.getElem?_cons_succ] at h
      have := ih i h
      simp only [List.set_cons_succ, total_cons]
      omega

theorem total_replicate (f : Pc → Nat) (n : Nat) (w : Worker) :
    total f (List.replicate n w) = n * f w.pc := by
  induction n with
  | zero => simp [total]
  | succ n ih => rw [List.replicate_succ, total_cons, ih]; ring

theorem total_ge (f : Pc → Nat) (ws : List Worker) (i : Nat) (w : Worker)
    (h : ws[i]? = some w) : f w.pc ≤ total f ws := by
  have := total_set f ws i w w h
  induction ws generalizing i with
  | nil => simp at h
  | cons x ws ih =>
    cases i with
    | zero =>
      simp only [List.getElem?_cons_zero, Option.some.injEq] at h
      subst h
      rw [total_cons]; omega
    | succ i =>
      simp only [List.getElem?_cons_succ] at h
      have := ih i h (total_set f ws i w w h)
      rw [total_cons]; omega

theorem exists_of_total_pos (f : Pc → Nat) (ws : List Worker) (h : 0 < total f ws) :
    ∃ (i : Nat) (w : Worker), ws[i]? = some w ∧ 0 < f w.pc := by
  induction ws with
  | nil => simp [total] at h
  | cons x ws ih =>
    rw [total_cons] at h
    by_cases hx : 0 < f x.pc
    · exact ⟨0, x, List.getElem?_cons_zero, hx⟩
    · obtain ⟨i, w, hw, hf⟩ := ih (by omega)
      exact ⟨i + 1, w, by rw [List.getElem?_cons_succ]; exact hw, hf⟩

theorem total_all (ws : List Worker) :
    total at_wait ws + total at_check ws + total at_fetch ws + total at_recheck ws
      + total at_work ws + total at_exited ws = ws.length := by
  induction ws with
  | nil => simp [total]
  | cons x ws ih =>
    simp only [total_cons, List.length_cons]
    cases hx : x.pc <;> simp [at_wait, at_check, at_fetch, at_recheck, at_work, at_exited] <;> omega

theorem total_woken (ws : List Worker) :
    total woken ws = total at_check ws + total at_fetch ws := by
  induction ws with
  | nil => simp [total]
  | cons x ws ih =>
    simp only [total_cons, ih]
    cases hx : x.pc <;> simp [woken, at_check, at_fetch] <;> omega


theorem enqueue_fail (q : QueueData) (t : Task) (h : (enqueue q t).1 = false) :
    (enqueue q t).2 = q := by
  unfold enqueue at h ⊢
  split_ifs at h ⊢ <;> simp_all

theorem enqueue_ok (q : QueueData) (t : Task) (hi : TaskQueue.Inv q) (h : (enqueue q t).1 = true) :
    (enqueue q t).2.count = q.count + 1 ∧ q.shutdown = false ∧ q.count < 128 := by
  unfold TaskQueue.Inv at hi
  unfold enqueue at h ⊢
  split_ifs at h ⊢ with h1 h2
  simp only [MAX_TASKS, SIZE_MOD] at *
  refine ⟨by omega, by simpa using h1, by omega⟩

theorem enqueue_shutdown (q : QueueData) (t : Task) :
    (enqueue q t).2.shutdown = q.shutdown := by
  unfold enqueue
  split_ifs <;> rfl

theorem dequeue_shutdown (q : QueueData) (t : Task) :
    (dequeue q t).2.2.shutdown = q.shutdown := by
  unfold dequeue
  split_ifs <;> rfl

theorem dequeue_ok (q : QueueData) (t : Task) (hi : TaskQueue.Inv q) (hc : q.count ≠ 0) :
    (dequeue q t).1 = true ∧ (dequeue q t).2.2.count + 1 = q.count := by
  unfold TaskQueue.Inv at hi
  unfold dequeue
  rw [if_neg hc]
  simp only [MAX_TASKS, SIZE_MOD] at *
  refine ⟨trivial, by omega⟩

theorem dequeue_empty (q : QueueData) (t : Task) (hc : q.count = 0) :
    dequeue q t = (!q.shutdown, t, q) := by
  unfold dequeue
  rw [if_pos hc]

theorem live_suffix_dequeue (q : QueueData) (t : Task) (hl : Layout q) (hi : TaskQueue.Inv q)
    (acc : List Task) (h : live q <:+ acc) : live (dequeue q t).2.2 <:+ acc := by
  by_cases hc : q.count = 0
  · rw [dequeue_empty q t hc]; exact h
  · have := live_dequeue q t hl hi hc
    rw [this] at h
    exact List.IsSuffix.trans (List.suffix_cons _ _) h

/-- What a worker action does to the system. -/
theorem step_worker (process_file : Task → Bool) (stack : Task) (i : Nat) (s t : System)
    (h : step process_file stack (Actor.worker i) s = some t) :
    ∃ w next, s.workers[i]? = some w ∧
      worker_step process_file stack w s.shared = some next ∧
      t = { s with workers := s.workers.set i next.1, shared := next.2 } := by
  unfold step at h
  simp only at h
  cases hw : s.workers[i]? with
  | none => simp [hw] at h
  | some w =>
    simp only [hw] at h
    cases hn : worker_step process_file stack w s.shared with
    | none => simp [hn] at h
    | some next =>
      simp only [hn, Option.some.injEq] at h
      exact ⟨w, next, rfl, hn, h.symm⟩

/-- The nine ways a worker can move. -/
theorem worker_cases (process_file : Task → Bool) (stack : Task) (w : Worker) (s : Shared)
    (next : Worker × Shared) (h : worker_step process_file stack w s = some next) :
    (w.pc = Pc.wait ∧ 0 < s.task_sem ∧
      next = ({ w with pc := Pc.check }, { s with task_sem := s.task_sem - 1 })) ∨
    (w.pc = Pc.check ∧ s.queue.shutdown = true ∧ next = ({ w with pc := Pc.exited }, s)) ∨
    (w.pc = Pc.check ∧ s.queue.shutdown = false ∧ next = ({ w with pc := Pc.fetch }, s)) ∨
    (w.pc = Pc.fetch ∧ (dequeue s.queue (Task.ctor stack)).1 = false ∧
      next = ({ w with pc := Pc.recheck },
        { s with queue := (dequeue s.queue (Task.ctor stack)).2.2 })) ∨
    (w.pc = Pc.fetch ∧ (dequeue s.queue (Task.ctor stack)).1 = true ∧
      (dequeue s.queue (Task.ctor stack)).2.1.type = TaskType.TERMINATE ∧
      next = ({ w with pc := Pc.exited },
        { s with queue := (dequeue s.queue (Task.ctor stack)).2.2 })) ∨
    (w.pc = Pc.fetch ∧ (dequeue s.queue (Task.ctor stack)).1 = true ∧
      (dequeue s.queue (Task.ctor stack)).2.1.type ≠ TaskType.TERMINATE ∧
      next = ({ w with pc := Pc.work (dequeue s.queue (Task.ctor stack)).2.1 },
        { s with queue := (dequeue s.queue (Task.ctor stack)).2.2 })) ∨
    (w.pc = Pc.recheck ∧ s.queue.shutdown = true ∧ next = ({ w with pc := Pc.exited }, s)) ∨
    (w.pc = Pc.recheck ∧ s.queue.shutdown = false ∧ next = ({ w with pc := Pc.wait }, s)) ∨
    (∃ task, w.pc = Pc.work task ∧
      next = ({ pc := Pc.wait, processed := w.processed ++ [(task, process_file task)] },
        { s with done_sem := s.done_sem + 1 })) := by
  unfold worker_step at h
  cases hpc : w.pc with
  | wait =>
    simp only [hpc] at h
    by_cases hsem : 0 < s.task_sem
    · rw [if_pos hsem] at h
      exact Or.inl ⟨rfl, hsem, (Option.some.inj h).symm⟩
    · rw [if_neg hsem] at h; exact absurd h (by simp)
  | check =>
    simp only [hpc, is_shutdown] at h
    by_cases hsd : s.queue.shutdown = true
    · rw [if_pos hsd] at h
      exact Or.inr (Or.inl ⟨rfl, hsd, (Option.some.inj h).symm⟩)
    · rw [if_neg hsd] at h
      exact Or.inr (Or.inr (Or.inl ⟨rfl, by simpa using hsd, (Option.some.inj h).symm⟩))
  | fetch =>
    simp only [hpc] at h
    by_cases hr : (dequeue s.queue (Task.ctor stack)).1 = true
    · have hr' : ¬ ((!(dequeue s.queue (Task.ctor stack)).1) = true) := by simp [hr]
      rw [if_neg hr'] at h
      by_cases ht : (dequeue s.queue (Task.ctor stack)).2.1.type = TaskType.TERMINATE
      · rw [if_pos ht] at h
        exact Or.inr (Or.inr (Or.inr (Or.inr (Or.inl ⟨rfl, hr, ht, (Option.some.inj h).symm⟩))))
      · rw [if_neg ht] at h
        exact Or.inr (Or.inr (Or.inr (Or.inr (Or.inr (Or.inl
          ⟨rfl, hr, ht, (Option.some.inj h).symm⟩)))))
    · have hr' : (!(dequeue s.queue (Task.ctor stack)).1) = true := by simpa using hr
      rw [if_pos hr'] at h
      exact Or.inr (Or.inr (Or.inr (Or.inl ⟨rfl, by simpa using hr, (Option.some.inj h).symm⟩)))
  | recheck =>
    simp only [hpc, is_shutdown] at h
    by_cases hsd : s.queue.shutdown = true
    · rw [if_pos hsd] at h
      exact Or.inr (Or.inr (Or.inr (Or.inr (Or.inr (Or.inr (Or.inl
        ⟨rfl, hsd, (Option.some.inj h).symm⟩))))))
    · rw [if_neg hsd] at h
      exact Or.inr (Or.inr (Or.inr (Or.inr (Or.inr (Or.inr (Or.inr (Or.inl
        ⟨rfl, by simpa using hsd, (Option.some.inj h).symm⟩)))))))
  | work task =>
    simp only [hpc] at h
    exact Or.inr (Or.inr (Or.inr (Or.inr (Or.inr (Or.inr (Or.inr (Or.inr
      ⟨task, rfl, (Option.some.inj h).symm⟩)))))))
  | exited =>
    simp only [hpc] at h
    exact absurd h (by simp)

/-- The seven ways the producer can move. -/
theorem producer_cases (s t : System) (h : producer_step s = some t) :
    s.failed = false ∧
    ((∃ task rest, s.script = Instr.enqueue task :: rest ∧
        (enqueue s.shared.queue task).1 = true ∧
        t = { s with
          shared := { s.shared with queue := (enqueue s.shared.queue task).2 }
          script := rest
          accepted := s.accepted ++ [task] }) ∨
    (∃ task rest, s.script = Instr.enqueue task :: rest ∧
        (enqueue s.shared.queue task).1 = false ∧
        t = { s with
          shared := { s.shared with queue := (enqueue s.shared.queue task).2 }
          script := rest
          failed := true }) ∨
    (∃ rest, s.script = Instr.post_task :: rest ∧
        t = { s with
          shared := { s.shared with task_sem := s.shared.task_sem + 1 }
          script := rest }) ∨
    (∃ rest, s.script = Instr.wait_done :: rest ∧ 0 < s.shared.done_sem ∧
        t = { s with
          shared := { s.shared with done_sem := s.shared.done_sem - 1 }
          script := rest }) ∨
    (∃ rest, s.script = Instr.signal_shutdown :: rest ∧
        t = { s with
          shared := { s.shared with queue := signal_shutdown s.shared.queue }
          script := rest }) ∨
    (∃ rest w, s.script = Instr.wait_all :: rest ∧ s.reaped < s.workers.length ∧
        s.workers[s.reaped]? = some w ∧ w.pc = Pc.exited ∧
        t = { s with reaped := s.reaped + 1 }) ∨
    (∃ rest, s.script = Instr.wait_all :: rest ∧ ¬ s.reaped < s.workers.length ∧
        t = { s with script := rest })) := by
  unfold producer_step at h
  by_cases hf : s.failed = true
  · rw [if_pos hf] at h; exact absurd h (by simp)
  rw [if_neg hf] at h
  refine ⟨by simpa using hf, ?_⟩
  cases hs : s.script with
  | nil => simp [hs] at h
  | cons instr rest =>
    simp only [hs] at h
    cases instr with
    | enqueue task =>
      simp only at h
      by_cases hr : (enqueue s.shared.queue task).1 = true
      · rw [if_pos hr] at h
        exact Or.inl ⟨task, rest, rfl, hr, (Option.some.inj h).symm⟩
      · rw [if_neg hr] at h
        exact Or.inr (Or.inl ⟨task, rest, rfl, by simpa using hr, (Option.some.inj h).symm⟩)
    | post_task =>
      simp only at h
      exact Or.inr (Or.inr (Or.inl ⟨rest, rfl, (Option.some.inj h).symm⟩))
    | wait_done =>
      simp only at h
      by_cases hd : 0 < s.shared.done_sem
      · rw [if_pos hd] at h
        exact Or.inr (Or.inr (Or.inr (Or.inl ⟨rest, rfl, hd, (Option.some.inj h).symm⟩)))
      · rw [if_neg hd] at h; exact absurd h (by simp)
    | signal_shutdown =>
      simp only at h
      exact Or.inr (Or.inr (Or.inr (Or.inr (Or.inl ⟨rest, rfl, (Option.some.inj h).symm⟩))))
    | wait_all =>
      simp only at h
      by_cases hrp : s.reaped < s.workers.length
      · rw [if_pos hrp] at h
        cases hw : s.workers[s.reaped]? with
        | none => simp [hw] at h
        | some w =>
          simp only [hw] at h
          by_cases hx : w.pc = Pc.exited
          · rw [if_pos hx] at h
            exact Or.inr (Or.inr (Or.inr (Or.inr (Or.inr (Or.inl
              ⟨rest, w, rfl, hrp, rfl, hx, (Option.some.inj h).symm⟩)))))
          · rw [if_neg hx] at h; exact absurd h (by simp)
      · rw [if_neg hrp] at h
        exact Or.inr (Or.inr (Or.inr (Or.inr (Or.inr (Or.inr
          ⟨rest, rfl, hrp, (Option.some.inj h).symm⟩)))))

theorem sound_step (process_file : Task → Bool) (stack : Task) (a : Actor) (s t : System)
    (hs : Sound s) (h : step process_file stack a s = some t) : Sound t := by
  obtain ⟨hi, hl, hv⟩ := hs
  cases a with
  | worker i =>
    obtain ⟨w, next, _, hstep, rfl⟩ := step_worker _ _ _ _ _ h
    rcases worker_cases _ _ _ _ _ hstep with
      ⟨_, _, rfl⟩ | ⟨_, _, rfl⟩ | ⟨_, _, rfl⟩ | ⟨_, _, rfl⟩ | ⟨_, _, _, rfl⟩ | ⟨_, _, _, rfl⟩ |
      ⟨_, _, rfl⟩ | ⟨_, _, rfl⟩ | ⟨_, _, rfl⟩
    all_goals first
      | exact ⟨hi, hl, hv⟩
      | exact ⟨inv_dequeue _ _ hi, layout_dequeue _ _ hl, live_suffix_dequeue _ _ hl hi _ hv⟩
  | producer =>
    obtain ⟨_, hcases⟩ := producer_cases s t h
    rcases hcases with ⟨task, rest, _, hr, rfl⟩ | ⟨task, rest, _, hr, rfl⟩ | ⟨rest, _, rfl⟩ |
      ⟨rest, _, _, rfl⟩ | ⟨rest, _, rfl⟩ | ⟨rest, w, _, _, _, _, rfl⟩ | ⟨rest, _, _, rfl⟩
    · refine ⟨inv_enqueue _ _ hi, layout_enqueue _ _ hl, ?_⟩
      show live (enqueue s.shared.queue task).2 <:+ s.accepted ++ [task]
      rw [live_enqueue _ _ hl hi hr]
      obtain ⟨pre, hpre⟩ := hv
      exact ⟨pre, by rw [← hpre, List.append_assoc]⟩
    · have hq := enqueue_fail _ task hr
      show TaskQueue.Inv (enqueue s.shared.queue task).2 ∧ Layout (enqueue s.shared.queue task).2 ∧
        live (enqueue s.shared.queue task).2 <:+ s.accepted
      rw [hq]
      exact ⟨hi, hl, hv⟩
    all_goals exact ⟨hi, hl, hv⟩


theorem pending_of_protocol (script : List Instr) (h : Protocol script) : pending script = 0 := by
  cases script with
  | nil => rfl
  | cons instr rest =>
    cases instr <;> first | rfl | simp [Protocol] at h

theorem protocolFrom_of_protocol (script : List Instr) (h : Protocol script) :
    ProtocolFrom script := by
  cases script with
  | nil => exact h
  | cons instr rest =>
    cases instr <;> first | exact h | simp [Protocol] at h

theorem budget_step (process_file : Task → Bool) (stack : Task) (a : Actor) (s t : System)
    (hs : Sound s) (hb : Budget s) (h : step process_file stack a s = some t) : Budget t := by
  obtain ⟨hi, hl, _⟩ := hs
  cases a with
  | worker i =>
    obtain ⟨w, next, hw, hstep, rfl⟩ := step_worker _ _ _ _ _ h
    have hset := fun w' => total_set woken s.workers i w w' hw
    rcases worker_cases _ _ _ _ _ hstep with
      ⟨hpc, hsem, rfl⟩ | ⟨hpc, _, rfl⟩ | ⟨hpc, _, rfl⟩ | ⟨hpc, hr, rfl⟩ | ⟨hpc, _, _, rfl⟩ |
      ⟨hpc, _, _, rfl⟩ | ⟨hpc, _, rfl⟩ | ⟨hpc, _, rfl⟩ | ⟨task, hpc, rfl⟩
    · intro hsd
      obtain ⟨b1, b2⟩ := hb hsd
      have := hset { w with pc := Pc.check }
      simp only [hpc, woken] at this
      exact ⟨b1, by simp only; omega⟩
    · intro hsd
      obtain ⟨b1, b2⟩ := hb hsd
      have := hset { w with pc := Pc.exited }
      simp only [hpc, woken] at this
      exact ⟨b1, by simp only; omega⟩
    · intro hsd
      obtain ⟨b1, b2⟩ := hb hsd
      have := hset { w with pc := Pc.fetch }
      simp only [hpc, woken] at this
      exact ⟨b1, by simp only; omega⟩
    · intro hsd
      have hsd0 : s.shared.queue.shutdown = false := by
        rw [← dequeue_shutdown s.shared.queue (Task.ctor stack)]; exact hsd
      obtain ⟨b1, b2⟩ := hb hsd0
      have hge := total_ge woken s.workers i w hw
      simp only [hpc, woken] at hge
      have hc : s.shared.queue.count ≠ 0 := by omega
      exact absurd (dequeue_ok _ (Task.ctor stack) hi hc).1 (by simp [hr])
    · intro hsd
      have hsd0 : s.shared.queue.shutdown = false := by
        rw [← dequeue_shutdown s.shared.queue (Task.ctor stack)]; exact hsd
      obtain ⟨b1, b2⟩ := hb hsd0
      have hge := total_ge woken s.workers i w hw
      simp only [hpc, woken] at hge
      have hc : s.shared.queue.count ≠ 0 := by omega
      have hd := (dequeue_ok _ (Task.ctor stack) hi hc).2
      have := hset { w with pc := Pc.exited }
      simp only [hpc, woken] at this
      exact ⟨b1, by simp only; omega⟩
    · intro hsd
      have hsd0 : s.shared.queue.shutdown = false := by
        rw [← dequeue_shutdown s.shared.queue (Task.ctor stack)]; exact hsd
      obtain ⟨b1, b2⟩ := hb hsd0
      have hge := total_ge woken s.workers i w hw
      simp only [hpc, woken] at hge
      have hc : s.shared.queue.count ≠ 0 := by omega
      have hd := (dequeue_ok _ (Task.ctor stack) hi hc).2
      have := hset { w with pc := Pc.work (dequeue s.shared.queue (Task.ctor stack)).2.1 }
      simp only [hpc, woken] at this
      exact ⟨b1, by simp only; omega⟩
    · intro hsd
      obtain ⟨b1, b2⟩ := hb hsd
      have := hset { w with pc := Pc.exited }
      simp only [hpc, woken] at this
      exact ⟨b1, by simp only; omega⟩
    · intro hsd
      obtain ⟨b1, b2⟩ := hb hsd
      have := hset { w with pc := Pc.wait }
      simp only [hpc, woken] at this
      exact ⟨b1, by simp only; omega⟩
    · intro hsd
      obtain ⟨b1, b2⟩ := hb hsd
      have := hset { pc := Pc.wait, processed := w.processed ++ [(task, process_file task)] }
      simp only [hpc, woken] at this
      exact ⟨b1, by simp only; omega⟩
  | producer =>
    obtain ⟨hf, hcases⟩ := producer_cases s t h
    rcases hcases with ⟨task, rest, hsc, hr, rfl⟩ | ⟨task, rest, hsc, hr, rfl⟩ | ⟨rest, hsc, rfl⟩ |
      ⟨rest, hsc, _, rfl⟩ | ⟨rest, hsc, rfl⟩ | ⟨rest, w, hsc, _, _, _, rfl⟩ | ⟨rest, hsc, _, rfl⟩
    · intro hsd
      have hsd0 : s.shared.queue.shutdown = false := by
        rw [← enqueue_shutdown s.shared.queue task]; exact hsd
      obtain ⟨b1, b2⟩ := hb hsd0
      have hp := b1 hf
      rw [hsc] at hp
      obtain ⟨hcnt, _, _⟩ := enqueue_ok _ task hi hr
      rw [hf, hsc] at b2
      simp only [pending, Bool.false_eq_true, if_false] at b2
      cases rest with
      | nil => simp [ProtocolFrom, Protocol] at hp
      | cons instr rest =>
        cases instr with
        | post_task =>
          refine ⟨fun _ => hp, ?_⟩
          simp only [hf, pending, Bool.false_eq_true, if_false]
          omega
        | _ => simp [ProtocolFrom, Protocol] at hp
    · intro hsd
      have hq := enqueue_fail _ task hr
      have hsd0 : s.shared.queue.shutdown = false := by
        rw [← enqueue_shutdown s.shared.queue task]; exact hsd
      obtain ⟨b1, b2⟩ := hb hsd0
      rw [hf, hsc] at b2
      simp only [pending, Bool.false_eq_true, if_false] at b2
      refine ⟨fun hff => absurd hff (by simp), ?_⟩
      simp only [hq, if_true]
      omega
    · intro hsd
      obtain ⟨b1, b2⟩ := hb hsd
      have hp := b1 hf
      rw [hsc] at hp
      rw [hf, hsc] at b2
      simp only [pending, Bool.false_eq_true, if_false] at b2
      have hp0 := pending_of_protocol rest hp
      refine ⟨fun _ => protocolFrom_of_protocol rest hp, ?_⟩
      simp only [hf, hp0, Bool.false_eq_true, if_false]
      omega
    · intro hsd
      obtain ⟨b1, b2⟩ := hb hsd
      have hp := b1 hf
      rw [hsc] at hp
      rw [hf, hsc] at b2
      simp only [pending, Bool.false_eq_true, if_false] at b2
      have hp0 := pending_of_protocol rest hp
      refine ⟨fun _ => protocolFrom_of_protocol rest hp, ?_⟩
      simp only [hf, hp0, Bool.false_eq_true, if_false]
      omega
    · intro hsd
      exact absurd hsd (by simp [signal_shutdown])
    · intro hsd
      obtain ⟨b1, b2⟩ := hb hsd
      have hp := b1 hf
      rw [hsc] at hp
      simp [ProtocolFrom, Protocol] at hp
    · intro hsd
      obtain ⟨b1, b2⟩ := hb hsd
      have hp := b1 hf
      rw [hsc] at hp
      simp [ProtocolFrom, Protocol] at hp

theorem sound_boot (mem : QueueData) (n : Nat) (script : List Instr) (hm : Layout mem) :
    Sound (boot mem n script) := by
  refine ⟨by simp [boot, TaskQueue.Inv, ctor], by simpa [boot, Layout, ctor] using hm, ?_⟩
  show live (ctor mem true) <:+ []
  rw [live_ctor]

theorem budget_boot (mem : QueueData) (n : Nat) (script : List Instr) (hp : Protocol script) :
    Budget (boot mem n script) := by
  intro _
  refine ⟨fun _ => protocolFrom_of_protocol script hp, ?_⟩
  simp [boot, start, total_replicate, woken, pending_of_protocol script hp, ctor]

theorem exec_invariant (process_file : Task → Bool) (stack : Task) (P : System → Prop)
    (hstep : ∀ a s t, P s → step process_file stack a s = some t → P t)
    (s t : System) (sched : List Actor) (h0 : P s)
    (h : exec process_file stack s sched = some t) : P t := by
  induction sched generalizing s with
  | nil =>
    simp only [exec, Option.some.injEq] at h
    exact h ▸ h0
  | cons a rest ih =>
    simp only [exec] at h
    cases hn : step process_file stack a s with
    | none => simp [hn] at h
    | some next =>
      simp only [hn] at h
      exact ih next (hstep a s next h0 hn) h


theorem dequeue_head (q : QueueData) (t : Task) (hl : Layout q) (hi : TaskQueue.Inv q)
    (hc : q.count ≠ 0) : some (dequeue q t).2.1 = q.tasks[q.head]? := by
  unfold Layout at hl
  unfold TaskQueue.Inv at hi
  have hh : q.head < q.tasks.length := by omega
  unfold dequeue
  rw [if_neg hc, List.getD_eq_getElem?_getD, List.getElem?_eq_getElem hh]
  rfl

/-! ### C15: the producer and worker protocol -/

/-- C15: when the producer follows the protocol (one post of `task_sem` right
after each successful enqueue, no other post before the shutdown signal) and the
workers run the dispatch loop, every state reached from the start in which
signal_shutdown has not been called satisfies: value of `task_sem` plus number
of workers back from `wait()` that have not yet dequeued is at most the queue
count. Hence a worker about to dequeue before shutdown finds the queue
non-empty, and its dequeue returns the task of slot `head`, a task that an
enqueue accepted. -/
theorem C15_protocol_invariant (process_file : Task → Bool) (stack : Task) (mem : QueueData)
    (n : Nat) (script : List Instr) (sched : List Actor) (s : System)
    (hm : Layout mem) (hp : Protocol script)
    (hx : exec process_file stack (boot mem n script) sched = some s)
    (hsd : s.shared.queue.shutdown = false) :
    s.shared.task_sem + total woken s.workers ≤ s.shared.queue.count ∧
    ∀ (i : Nat) (w : Worker), s.workers[i]? = some w → w.pc = Pc.fetch →
      s.shared.queue.count ≠ 0 ∧
      (dequeue s.shared.queue (Task.ctor stack)).1 = true ∧
      some (dequeue s.shared.queue (Task.ctor stack)).2.1
        = s.shared.queue.tasks[s.shared.queue.head]? ∧
      (dequeue s.shared.queue (Task.ctor stack)).2.1 ∈ s.accepted := by
  have hinv : Sound s ∧ Budget s :=
    exec_invariant process_file stack (fun s => Sound s ∧ Budget s)
      (fun a s t hs h =>
        ⟨sound_step _ _ a s t hs.1 h, budget_step _ _ a s t hs.1 hs.2 h⟩)
      _ _ sched ⟨sound_boot mem n script hm, budget_boot mem n script hp⟩ hx
  obtain ⟨⟨hi, hl, hv⟩, hb⟩ := hinv
  obtain ⟨_, b2⟩ := hb hsd
  refine ⟨by omega, ?_⟩
  intro i w hw hpc
  have hge := total_ge woken s.workers i w hw
  simp only [hpc, woken] at hge
  have hc : s.shared.queue.count ≠ 0 := by omega
  refine ⟨hc, (dequeue_ok _ _ hi hc).1, dequeue_head _ _ hl hi hc, ?_⟩
  have hlive := live_dequeue s.shared.queue (Task.ctor stack) hl hi hc
  rw [hlive] at hv
  exact hv.subset (List.mem_cons_self _ _)

/-- Witness of C15: two jobs submitted, worker 0 woken and about to dequeue. -/
theorem C15_protocol_invariant_witness :
    Sample.woken_system.shared.task_sem + total woken Sample.woken_system.workers
        ≤ Sample.woken_system.shared.queue.count ∧
    ∀ (i : Nat) (w : Worker), Sample.woken_system.workers[i]? = some w → w.pc = Pc.fetch →
      Sample.woken_system.shared.queue.count ≠ 0 ∧
      (dequeue Sample.woken_system.shared.queue (Task.ctor Sample.blank)).1 = true ∧
      some (dequeue Sample.woken_system.shared.queue (Task.ctor Sample.blank)).2.1
        = Sample.woken_system.shared.queue.tasks[Sample.woken_system.shared.queue.head]? ∧
      (dequeue Sample.woken_system.shared.queue (Task.ctor Sample.blank)).2.1
        ∈ Sample.woken_system.accepted :=
  C15_protocol_invariant (fun _ => true) Sample.blank Sample.segment 2
    [Instr.enqueue (Sample.job 0), Instr.post_task, Instr.enqueue (Sample.job 1),
      Instr.post_task]
    [Actor.producer, Actor.producer, Actor.worker 0, Actor.producer, Actor.producer,
      Actor.worker 0]
    Sample.woken_system (by simp [Layout, Sample.segment]) (by simp [Protocol]) rfl rfl

/-! ### The pool scenario -/

theorem scenario_eq (tasks : List Task) (n : Nat) :
    scenario tasks n
      = submit tasks ++ (List.replicate tasks.length Instr.wait_done ++ closing n) := rfl

theorem preShape_bounds (m n : Nat) (script : List Instr) (pe pp pw : Nat)
    (h : PreShape m n script pe pp pw) : pe ≤ pp ∧ pp ≤ pe + 1 ∧ pw ≤ m := by
  rcases h with ⟨t, ts, _, _, _, h1, h2, h3⟩ | ⟨ts, _, _, h1, h2, h3⟩ | ⟨_, h1, h2, h3⟩ <;> omega

theorem totals_set (ws : List Worker) (i : Nat) (w w' : Worker) (h : ws[i]? = some w) :
    total at_wait (ws.set i w') + at_wait w.pc = total at_wait ws + at_wait w'.pc ∧
    total at_check (ws.set i w') + at_check w.pc = total at_check ws + at_check w'.pc ∧
    total at_fetch (ws.set i w') + at_fetch w.pc = total at_fetch ws + at_fetch w'.pc ∧
    total at_recheck (ws.set i w') + at_recheck w.pc
      = total at_recheck ws + at_recheck w'.pc ∧
    total at_work (ws.set i w') + at_work w.pc = total at_work ws + at_work w'.pc ∧
    total at_exited (ws.set i w') + at_exited w.pc = total at_exited ws + at_exited w'.pc :=
  ⟨total_set _ ws i w w' h, total_set _ ws i w w' h, total_set _ ws i w w' h,
    total_set _ ws i w w' h, total_set _ ws i w w' h, total_set _ ws i w w' h⟩

theorem enqueue_succeeds (q : QueueData) (t : Task) (hs : q.shutdown = false)
    (hc : q.count < 128) : (enqueue q t).1 = true := by
  unfold enqueue
  have : ¬ q.count ≥ MAX_TASKS := by simp only [MAX_TASKS]; omega
  simp [hs, this]

theorem live_subset_dequeue (q : QueueData) (t : Task) (hl : Layout q) (hi : TaskQueue.Inv q)
    (hc : q.count ≠ 0) :
    (dequeue q t).2.1 ∈ live q ∧ ∀ x ∈ live (dequeue q t).2.2, x ∈ live q := by
  have h := live_dequeue q t hl hi hc
  rw [h]
  exact ⟨List.mem_cons_self _ _, fun x hx => List.mem_cons_of_mem _ hx⟩

theorem pre_worker (process_file : Task → Bool) (stack : Task) (m n : Nat) (i : Nat)
    (s t : System) (hs : Sound s) (hp : PreInv m n s)
    (h : step process_file stack (Actor.worker i) s = some t) : PreInv m n t := by
  obtain ⟨hi, hl, _⟩ := hs
  obtain ⟨pe, pp, pw, hshape, hsd, hf, hrp, hlen, e1, e2, e3, e4, hlive⟩ := hp
  obtain ⟨b1, b2, b3⟩ := preShape_bounds _ _ _ _ _ _ hshape
  obtain ⟨w, next, hw, hstep, rfl⟩ := step_worker _ _ _ _ _ h
  have hset := fun w' => totals_set s.workers i w w' hw
  have g1 := total_ge at_recheck s.workers i w hw
  have g2 := total_ge at_exited s.workers i w hw
  have g3 := total_ge at_fetch s.workers i w hw
  rcases worker_cases _ _ _ _ _ hstep with
    ⟨hpc, hsem, rfl⟩ | ⟨hpc, hx, rfl⟩ | ⟨hpc, _, rfl⟩ | ⟨hpc, hr, rfl⟩ | ⟨hpc, _, hty, rfl⟩ |
    ⟨hpc, _, _, rfl⟩ | ⟨hpc, _, rfl⟩ | ⟨hpc, _, rfl⟩ | ⟨task, hpc, rfl⟩
  · obtain ⟨s1, s2, s3, s4, s5, s6⟩ := hset { w with pc := Pc.check }
    simp only [hpc, at_wait, at_check, at_fetch, at_recheck, at_work, at_exited] at s1 s2 s3 s4 s5 s6
    refine ⟨pe, pp, pw, hshape, hsd, hf, hrp, by simpa using hlen, ?_, ?_, ?_, ?_, hlive⟩ <;>
      simp only <;> omega
  · rw [hsd] at hx; exact absurd hx (by simp)
  · obtain ⟨s1, s2, s3, s4, s5, s6⟩ := hset { w with pc := Pc.fetch }
    simp only [hpc, at_wait, at_check, at_fetch, at_recheck, at_work, at_exited] at s1 s2 s3 s4 s5 s6
    refine ⟨pe, pp, pw, hshape, hsd, hf, hrp, by simpa using hlen, ?_, ?_, ?_, ?_, hlive⟩ <;>
      simp only <;> omega
  · simp only [hpc, at_fetch] at g3
    have hc : s.shared.queue.count ≠ 0 := by omega
    exact absurd (dequeue_ok _ (Task.ctor stack) hi hc).1 (by simp [hr])
  · simp only [hpc, at_fetch] at g3
    have hc : s.shared.queue.count ≠ 0 := by omega
    exact absurd hty (hlive _ (live_subset_dequeue _ (Task.ctor stack) hl hi hc).1)
  · simp only [hpc, at_fetch] at g3
    have hc : s.shared.queue.count ≠ 0 := by omega
    have hd := (dequeue_ok _ (Task.ctor stack) hi hc).2
    obtain ⟨s1, s2, s3, s4, s5, s6⟩ :=
      hset { w with pc := Pc.work (dequeue s.shared.queue (Task.ctor stack)).2.1 }
    simp only [hpc, at_wait, at_check, at_fetch, at_recheck, at_work, at_exited] at s1 s2 s3 s4 s5 s6
    refine ⟨pe, pp, pw, hshape, by simpa [dequeue_shutdown] using hsd, hf, hrp,
      by simpa using hlen, ?_, ?_, ?_, ?_,
      fun x hx => hlive x ((live_subset_dequeue _ (Task.ctor stack) hl hi hc).2 x hx)⟩ <;>
      simp only <;> omega
  · simp only [hpc, at_recheck] at g1; omega
  · simp only [hpc, at_recheck] at g1; omega
  · obtain ⟨s1, s2, s3, s4, s5, s6⟩ :=
      hset { pc := Pc.wait, processed := w.processed ++ [(task, process_file task)] }
    simp only [hpc, at_wait, at_check, at_fetch, at_recheck, at_work, at_exited] at s1 s2 s3 s4 s5 s6
    refine ⟨pe, pp, pw, hshape, hsd, hf, hrp, by simpa using hlen, ?_, ?_, ?_, ?_, hlive⟩ <;>
      simp only <;> omega


theorem submit_cons (t : Task) (ts : List Task) :
    submit (t :: ts) = Instr.enqueue t :: Instr.post_task :: submit ts := by
  simp [submit]

theorem submit_nil : submit [] = [] := rfl

/-- The shape of the script once the post owed has been made. -/
theorem preShape_after_post (m n : Nat) (ts : List Task)
    (hts : ∀ x ∈ ts, x.type ≠ TaskType.TERMINATE) :
    PreShape m n (submit ts ++ (List.replicate m Instr.wait_done ++ closing n))
      ts.length ts.length m := by
  cases ts with
  | nil => exact Or.inr (Or.inr ⟨by simp [submit_nil], rfl, rfl, le_refl m⟩)
  | cons t ts =>
    refine Or.inl ⟨t, ts, by rw [submit_cons]; rfl, hts t (List.mem_cons_self _ _),
      fun x hx => hts x (List.mem_cons_of_mem _ hx), rfl, rfl, rfl⟩

theorem pre_producer (m n : Nat) (hm : m ≤ 128) (s t : System) (hs : Sound s)
    (hp : PreInv m n s) (h : producer_step s = some t) : PreInv m n t ∨ PostInv n t := by
  obtain ⟨hi, hl, _⟩ := hs
  obtain ⟨pe, pp, pw, hshape, hsd, hf, hrp, hlen, e1, e2, e3, e4, hlive⟩ := hp
  obtain ⟨_, hcases⟩ := producer_cases s t h
  rcases hcases with ⟨task, rest, hsc, hr, rfl⟩ | ⟨task, rest, hsc, hr, rfl⟩ | ⟨rest, hsc, rfl⟩ |
    ⟨rest, hsc, hd, rfl⟩ | ⟨rest, hsc, rfl⟩ | ⟨rest, w, hsc, _, _, _, rfl⟩ | ⟨rest, hsc, _, rfl⟩
  · -- a successful enqueue
    rcases hshape with ⟨t0, ts, hs0, ht0, hts, h1, h2, h3⟩ | ⟨ts, hs0, _, _, _, _⟩ |
      ⟨hs0, _, _, _⟩
    · rw [hsc] at hs0
      simp only [List.cons.injEq, Instr.enqueue.injEq] at hs0
      obtain ⟨rfl, rfl⟩ := hs0
      obtain ⟨hcnt, _, _⟩ := enqueue_ok _ task hi hr
      left
      refine ⟨ts.length, ts.length + 1, m, Or.inr (Or.inl ⟨ts, rfl, hts, rfl, rfl, rfl⟩),
        by simpa [enqueue_shutdown] using hsd, hf, hrp, hlen, e1, e2, ?_, ?_, ?_⟩
      · simp only; omega
      · simp only; omega
      · intro x hx
        simp only at hx
        rw [live_enqueue _ _ hl hi hr, List.mem_append, List.mem_singleton] at hx
        rcases hx with hx | rfl
        · exact hlive x hx
        · exact ht0
    · rw [hsc] at hs0; simp at hs0
    · rw [hsc] at hs0
      cases pw <;> simp [List.replicate_succ, closing] at hs0
  · -- a failed enqueue cannot happen
    rcases hshape with ⟨t0, ts, hs0, ht0, hts, h1, h2, h3⟩ | ⟨ts, hs0, _, _, _, _⟩ |
      ⟨hs0, _, _, _⟩
    · have hc : s.shared.queue.count < 128 := by omega
      rw [enqueue_succeeds _ task hsd hc] at hr
      exact absurd hr (by simp)
    · rw [hsc] at hs0; simp at hs0
    · rw [hsc] at hs0
      cases pw <;> simp [List.replicate_succ, closing] at hs0
  · -- the post owed
    rcases hshape with ⟨t0, ts, hs0, _, _, _, _, _⟩ | ⟨ts, hs0, hts, h1, h2, h3⟩ |
      ⟨hs0, _, _, _⟩
    · rw [hsc] at hs0; simp at hs0
    · rw [hsc] at hs0
      simp only [List.cons.injEq, true_and] at hs0
      subst hs0
      left
      refine ⟨ts.length, ts.length, m, preShape_after_post m n ts hts, hsd, hf, hrp, hlen,
        e1, e2, ?_, ?_, hlive⟩
      · simp only; omega
      · simp only; omega
    · rw [hsc] at hs0
      cases pw <;> simp [List.replicate_succ, closing] at hs0
  · -- a wait on done_sem
    rcases hshape with ⟨t0, ts, hs0, _, _, _, _, _⟩ | ⟨ts, hs0, _, _, _, _⟩ |
      ⟨hs0, h1, h2, h3⟩
    · rw [hsc] at hs0; simp at hs0
    · rw [hsc] at hs0; simp at hs0
    · rw [hsc] at hs0
      cases pw with
      | zero => simp [closing] at hs0
      | succ k =>
        simp only [List.replicate_succ, List.cons_append, List.cons.injEq, true_and] at hs0
        subst hs0
        left
        refine ⟨0, 0, k, Or.inr (Or.inr ⟨rfl, rfl, rfl, by omega⟩), hsd, hf, hrp, hlen,
          e1, e2, ?_, ?_, hlive⟩
        · simp only; omega
        · simp only; omega
  · -- the shutdown signal
    rcases hshape with ⟨t0, ts, hs0, _, _, _, _, _⟩ | ⟨ts, hs0, _, _, _, _⟩ |
      ⟨hs0, h1, h2, h3⟩
    · rw [hsc] at hs0; simp at hs0
    · rw [hsc] at hs0; simp at hs0
    · rw [hsc] at hs0
      cases pw with
      | succ k => simp [List.replicate_succ] at hs0
      | zero =>
        simp only [List.replicate_zero, List.nil_append, closing, List.cons.injEq,
          true_and] at hs0
        subst hs0
        right
        refine ⟨n, rfl, rfl, hf, hlen, by simp only; omega, e1, by simp only; omega, ?_,
          by simp only; omega, ?_⟩
        · simp only; omega
        · intro i hi'
          simp only [hrp] at hi'
          omega
  · rw [hrp] at *
    rcases hshape with ⟨t0, ts, hs0, _, _, _, _, _⟩ | ⟨ts, hs0, _, _, _, _⟩ |
      ⟨hs0, h1, h2, h3⟩
    · rw [hsc] at hs0; simp at hs0
    · rw [hsc] at hs0; simp at hs0
    · rw [hsc] at hs0
      cases pw <;> simp [List.replicate_succ, closing] at hs0
  · rcases hshape with ⟨t0, ts, hs0, _, _, _, _, _⟩ | ⟨ts, hs0, _, _, _, _⟩ |
      ⟨hs0, h1, h2, h3⟩
    · rw [hsc] at hs0; simp at hs0
    · rw [hsc] at hs0; simp at hs0
    · rw [hsc] at hs0
      cases pw <;> simp [List.replicate_succ, closing] at hs0


theorem post_worker (process_file : Task → Bool) (stack : Task) (n : Nat) (i : Nat)
    (s t : System) (hp : PostInv n s)
    (h : step process_file stack (Actor.worker i) s = some t) : PostInv n t := by
  obtain ⟨j, hsc, hsd, hf, hlen, f1, f2, f3, f4, hrn, hreap⟩ := hp
  obtain ⟨w, next, hw, hstep, rfl⟩ := step_worker _ _ _ _ _ h
  have hset := fun w' => totals_set s.workers i w w' hw
  have g1 := total_ge at_recheck s.workers i w hw
  have g2 := total_ge at_fetch s.workers i w hw
  have g3 := total_ge at_work s.workers i w hw
  have hkeep : ∀ w', w.pc ≠ Pc.exited →
      ∀ k, k < s.reaped → ∃ v, (s.workers.set i w')[k]? = some v ∧ v.pc = Pc.exited := by
    intro w' hne k hk
    obtain ⟨v, hv, hvx⟩ := hreap k hk
    have hik : i ≠ k := by
      rintro rfl
      rw [hw] at hv
      exact hne ((Option.some.inj hv) ▸ hvx)
    exact ⟨v, by rw [List.getElem?_set_ne hik]; exact hv, hvx⟩
  rcases worker_cases _ _ _ _ _ hstep with
    ⟨hpc, hsem, rfl⟩ | ⟨hpc, hx, rfl⟩ | ⟨hpc, hx, rfl⟩ | ⟨hpc, hr, rfl⟩ | ⟨hpc, _, hty, rfl⟩ |
    ⟨hpc, _, _, rfl⟩ | ⟨hpc, _, rfl⟩ | ⟨hpc, _, rfl⟩ | ⟨task, hpc, rfl⟩
  · obtain ⟨s1, s2, s3, s4, s5, s6⟩ := hset { w with pc := Pc.check }
    simp only [hpc, at_wait, at_check, at_fetch, at_recheck, at_work, at_exited] at s1 s2 s3 s4 s5 s6
    refine ⟨j, hsc, hsd, hf, by simpa using hlen, ?_, ?_, ?_, ?_, hrn,
      hkeep _ (by rw [hpc]; simp)⟩ <;> simp only <;> omega
  · obtain ⟨s1, s2, s3, s4, s5, s6⟩ := hset { w with pc := Pc.exited }
    simp only [hpc, at_wait, at_check, at_fetch, at_recheck, at_work, at_exited] at s1 s2 s3 s4 s5 s6
    refine ⟨j, hsc, hsd, hf, by simpa using hlen, ?_, ?_, ?_, ?_, hrn,
      hkeep _ (by rw [hpc]; simp)⟩ <;> simp only <;> omega
  · rw [hsd] at hx; exact absurd hx (by simp)
  · simp only [hpc, at_fetch] at g2; omega
  · simp only [hpc, at_fetch] at g2; omega
  · simp only [hpc, at_fetch] at g2; omega
  · simp only [hpc, at_recheck] at g1; omega
  · simp only [hpc, at_recheck] at g1; omega
  · simp only [hpc, at_work] at g3; omega

theorem all_exited_of_reaped (ws : List Worker) (r : Nat) (hr : ws.length ≤ r)
    (h : ∀ i, i < r → ∃ w, ws[i]? = some w ∧ w.pc = Pc.exited) :
    ∀ w ∈ ws, w.pc = Pc.exited := by
  intro w hw
  obtain ⟨i, hi⟩ := List.mem_iff_getElem?.mp hw
  have hlt : i < ws.length := by
    by_contra hge
    rw [List.getElem?_eq_none (by omega)] at hi
    exact absurd hi (by simp)
  obtain ⟨v, hv, hvx⟩ := h i (by omega)
  rw [hi] at hv
  exact (Option.some.inj hv) ▸ hvx

theorem post_producer (n : Nat) (s t : System) (hp : PostInv n s)
    (h : producer_step s = some t) : PostInv n t ∨ Final t := by
  obtain ⟨j, hsc0, hsd, hf, hlen, f1, f2, f3, f4, hrn, hreap⟩ := hp
  obtain ⟨_, hcases⟩ := producer_cases s t h
  rcases hcases with ⟨task, rest, hsc, hr, rfl⟩ | ⟨task, rest, hsc, hr, rfl⟩ | ⟨rest, hsc, rfl⟩ |
    ⟨rest, hsc, hd, rfl⟩ | ⟨rest, hsc, rfl⟩ | ⟨rest, w, hsc, hlt, hw, hwx, rfl⟩ |
    ⟨rest, hsc, hge, rfl⟩
  · rw [hsc] at hsc0; cases j <;> simp [List.replicate_succ] at hsc0
  · rw [hsc] at hsc0; cases j <;> simp [List.replicate_succ] at hsc0
  · rw [hsc] at hsc0
    cases j with
    | zero => simp at hsc0
    | succ k =>
      simp only [List.replicate_succ, List.cons_append, List.cons.injEq, true_and] at hsc0
      subst hsc0
      left
      exact ⟨k, rfl, hsd, hf, hlen, f1, f2, f3, by simp only; omega, hrn, hreap⟩
  · rw [hsc] at hsc0; cases j <;> simp [List.replicate_succ] at hsc0
  · rw [hsc] at hsc0; cases j <;> simp [List.replicate_succ] at hsc0
  · left
    refine ⟨j, hsc0, hsd, hf, hlen, f1, f2, f3, f4, by simp only; omega, ?_⟩
    intro i hi
    simp only at hi
    by_cases hir : i < s.reaped
    · exact hreap i hir
    · have : i = s.reaped := by omega
      subst this
      exact ⟨w, hw, hwx⟩
  · rw [hsc] at hsc0
    cases j with
    | succ k => simp [List.replicate_succ] at hsc0
    | zero =>
      simp only [List.replicate_zero, List.nil_append, List.cons.injEq, true_and] at hsc0
      subst hsc0
      right
      refine ⟨rfl, hf, by simp only; omega, ?_⟩
      exact all_exited_of_reaped s.workers s.reaped (by omega) hreap

theorem final_stuck (process_file : Task → Bool) (stack : Task) (a : Actor) (s : System)
    (hfin : Final s) : step process_file stack a s = none := by
  obtain ⟨hsc, _, _, hall⟩ := hfin
  cases hstep : step process_file stack a s with
  | none => rfl
  | some t =>
    exfalso
    cases a with
    | producer =>
      obtain ⟨_, hcases⟩ := producer_cases s t hstep
      rcases hcases with ⟨_, _, h, _⟩ | ⟨_, _, h, _⟩ | ⟨_, h, _⟩ | ⟨_, h, _⟩ | ⟨_, h, _⟩ |
        ⟨_, _, h, _⟩ | ⟨_, h, _⟩ <;> (rw [hsc] at h; simp at h)
    | worker i =>
      obtain ⟨w, next, hw, hws, _⟩ := step_worker _ _ _ _ _ hstep
      have hx := hall w (List.getElem?_mem hw)
      unfold worker_step at hws
      rw [hx] at hws
      simp at hws

theorem scen_step (process_file : Task → Bool) (stack : Task) (m n : Nat) (hm : m ≤ 128)
    (a : Actor) (s t : System) (hs : ScenInv m n s)
    (h : step process_file stack a s = some t) : ScenInv m n t := by
  obtain ⟨hsound, hphase⟩ := hs
  refine ⟨sound_step _ _ a s t hsound h, ?_⟩
  rcases hphase with hpre | hpost | hfin
  · cases a with
    | producer =>
      rcases pre_producer m n hm s t hsound hpre h with h1 | h1
      · exact Or.inl h1
      · exact Or.inr (Or.inl h1)
    | worker i => exact Or.inl (pre_worker _ _ m n i s t hsound hpre h)
  · cases a with
    | producer =>
      rcases post_producer n s t hpost h with h1 | h1
      · exact Or.inr (Or.inl h1)
      · exact Or.inr (Or.inr h1)
    | worker i => exact Or.inr (Or.inl (post_worker _ _ n i s t hpost h))
  · rw [final_stuck _ _ a s hfin] at h
    exact absurd h (by simp)

theorem scen_boot (mem : QueueData) (tasks : List Task) (n : Nat) (hm : Layout mem)
    (hk : ∀ t ∈ tasks, t.type ≠ TaskType.TERMINATE) :
    ScenInv tasks.length n (boot mem n (scenario tasks n)) := by
  refine ⟨sound_boot mem n _ hm, Or.inl ?_⟩
  refine ⟨tasks.length, tasks.length, tasks.length, ?_, rfl, rfl, rfl, by simp [boot, start],
    by simp [boot, start, total_replicate, at_recheck],
    by simp [boot, start, total_replicate, at_exited], ?_, ?_, ?_⟩
  · rw [show (boot mem n (scenario tasks n)).script = scenario tasks n from rfl, scenario_eq]
    exact preShape_after_post tasks.length n tasks hk
  · simp [boot, start, total_replicate, at_check, at_fetch, at_work]
  · simp [boot, start, total_replicate, at_check, at_fetch, ctor]
  · intro t ht
    rw [show (boot mem n (scenario tasks n)).shared.queue = ctor mem true from rfl,
      live_ctor] at ht
    simp at ht


theorem worker_can_move (process_file : Task → Bool) (stack : Task) (w : Worker) (s : Shared)
    (hx : w.pc ≠ Pc.exited) (hw : w.pc = Pc.wait → 0 < s.task_sem) :
    ∃ next, worker_step process_file stack w s = some next := by
  unfold worker_step
  cases hpc : w.pc with
  | wait => simp only; rw [if_pos (hw hpc)]; exact ⟨_, rfl⟩
  | check => simp only; split_ifs <;> exact ⟨_, rfl⟩
  | fetch => simp only; split_ifs <;> exact ⟨_, rfl⟩
  | recheck => simp only; split_ifs <;> exact ⟨_, rfl⟩
  | work task => exact ⟨_, rfl⟩
  | exited => exact absurd hpc hx

theorem step_of_worker (process_file : Task → Bool) (stack : Task) (i : Nat) (s : System)
    (w : Worker) (hw : s.workers[i]? = some w)
    (hmove : ∃ next, worker_step process_file stack w s.shared = some next) :
    ∃ a t, step process_file stack a s = some t := by
  obtain ⟨next, hn⟩ := hmove
  refine ⟨Actor.worker i, { s with workers := s.workers.set i next.1, shared := next.2 }, ?_⟩
  simp only [step, hw, hn]

theorem step_of_producer (process_file : Task → Bool) (stack : Task) (s : System)
    (hmove : ∃ t, producer_step s = some t) :
    ∃ a t, step process_file stack a s = some t := by
  obtain ⟨t, ht⟩ := hmove
  exact ⟨Actor.producer, t, ht⟩

theorem exists_active (ws : List Worker)
    (h : 0 < total at_check ws + total at_fetch ws + total at_recheck ws + total at_work ws) :
    ∃ (i : Nat) (w : Worker), ws[i]? = some w ∧ w.pc ≠ Pc.exited ∧ w.pc ≠ Pc.wait := by
  have pick : ∀ f : Pc → Nat, f Pc.exited = 0 → f Pc.wait = 0 → 0 < total f ws →
      ∃ (i : Nat) (w : Worker), ws[i]? = some w ∧ w.pc ≠ Pc.exited ∧ w.pc ≠ Pc.wait := by
    intro f h1 h2 hpos
    obtain ⟨i, w, hw, hf⟩ := exists_of_total_pos f ws hpos
    refine ⟨i, w, hw, ?_, ?_⟩
    · intro hpc; rw [hpc, h1] at hf; exact absurd hf (by simp)
    · intro hpc; rw [hpc, h2] at hf; exact absurd hf (by simp)
  by_cases h1 : 0 < total at_check ws
  · exact pick at_check rfl rfl h1
  by_cases h2 : 0 < total at_fetch ws
  · exact pick at_fetch rfl rfl h2
  by_cases h3 : 0 < total at_recheck ws
  · exact pick at_recheck rfl rfl h3
  · exact pick at_work rfl rfl (by omega)

theorem scen_progress (process_file : Task → Bool) (stack : Task) (m n : Nat) (hn : 0 < n)
    (s : System) (hs : ScenInv m n s) :
    Final s ∨ ∃ a t, step process_file stack a s = some t := by
  obtain ⟨_, hphase⟩ := hs
  rcases hphase with hpre | hpost | hfin
  · right
    obtain ⟨pe, pp, pw, hshape, hsd, hf, hrp, hlen, e1, e2, e3, e4, hlive⟩ := hpre
    by_cases hact : 0 < total at_check s.workers + total at_fetch s.workers
        + total at_recheck s.workers + total at_work s.workers
    · obtain ⟨i, w, hw, hx, hnw⟩ := exists_active s.workers hact
      exact step_of_worker _ _ i s w hw
        (worker_can_move _ _ w s.shared hx (fun h => absurd h hnw))
    rcases hshape with ⟨t0, ts, hs0, _, _, _, _, _⟩ | ⟨ts, hs0, _, _, _, _⟩ |
      ⟨hs0, h1, h2, h3⟩
    · apply step_of_producer
      unfold producer_step
      simp only [hf, hs0, Bool.false_eq_true, if_false]
      split_ifs <;> exact ⟨_, rfl⟩
    · apply step_of_producer
      unfold producer_step
      simp only [hf, hs0, Bool.false_eq_true, if_false]
      exact ⟨_, rfl⟩
    · cases pw with
      | zero =>
        apply step_of_producer
        unfold producer_step
        simp only [hf, hs0, Bool.false_eq_true, if_false, List.replicate_zero,
          List.nil_append, closing]
        exact ⟨_, rfl⟩
      | succ k =>
        by_cases hd : 0 < s.shared.done_sem
        · apply step_of_producer
          unfold producer_step
          simp only [hf, hs0, Bool.false_eq_true, if_false, List.replicate_succ,
            List.cons_append, hd, if_true]
          exact ⟨_, rfl⟩
        · have hall := total_all s.workers
          have hwait : 0 < total at_wait s.workers := by omega
          obtain ⟨i, w, hw, hfw⟩ := exists_of_total_pos at_wait s.workers hwait
          have hpc : w.pc = Pc.wait := by
            cases hp : w.pc <;> simp [hp, at_wait] at hfw ⊢
          exact step_of_worker _ _ i s w hw
            (worker_can_move _ _ w s.shared (by rw [hpc]; simp) (fun _ => by omega))
  · right
    obtain ⟨j, hsc, hsd, hf, hlen, f1, f2, f3, f4, hrn, hreap⟩ := hpost
    by_cases hact : 0 < total at_check s.workers + total at_fetch s.workers
        + total at_recheck s.workers + total at_work s.workers
    · obtain ⟨i, w, hw, hx, hnw⟩ := exists_active s.workers hact
      exact step_of_worker _ _ i s w hw
        (worker_can_move _ _ w s.shared hx (fun h => absurd h hnw))
    cases j with
    | succ k =>
      apply step_of_producer
      unfold producer_step
      simp only [hf, hsc, Bool.false_eq_true, if_false, List.replicate_succ, List.cons_append]
      exact ⟨_, rfl⟩
    | zero =>
      simp only [List.replicate_zero, List.nil_append] at hsc
      by_cases hlt : s.reaped < s.workers.length
      · have hw : s.workers[s.reaped]? = some (s.workers[s.reaped]) :=
          List.getElem?_eq_getElem hlt
        by_cases hx : (s.workers[s.reaped]).pc = Pc.exited
        · apply step_of_producer
          unfold producer_step
          simp only [hf, hsc, Bool.false_eq_true, if_false, hlt, if_true, hw, hx]
          exact ⟨_, rfl⟩
        · have hall := total_all s.workers
          have g1 := total_ge at_check s.workers _ _ hw
          have g2 := total_ge at_fetch s.workers _ _ hw
          have g3 := total_ge at_recheck s.workers _ _ hw
          have g4 := total_ge at_work s.workers _ _ hw
          have g5 := total_ge at_wait s.workers _ _ hw
          have hpc : (s.workers[s.reaped]).pc = Pc.wait := by
            cases hp : (s.workers[s.reaped]).pc with
            | wait => rfl
            | exited => exact absurd hp hx
            | check => simp only [hp, at_check] at g1; omega
            | fetch => simp only [hp, at_fetch] at g2; omega
            | recheck => simp only [hp, at_recheck] at g3; omega
            | work task => simp only [hp, at_work] at g4; omega
          simp only [hpc, at_wait] at g5
          exact step_of_worker _ _ s.reaped s _ hw
            (worker_can_move _ _ _ s.shared hx (fun _ => by omega))
      · apply step_of_producer
        unfold producer_step
        simp only [hf, hsc, Bool.false_eq_true, if_false, hlt]
        exact ⟨_, rfl⟩
  · exact Or.inl hfin


theorem measure_step (process_file : Task → Bool) (stack : Task) (a : Actor) (s t : System)
    (h : step process_file stack a s = some t) : measure t < measure s := by
  cases a with
  | worker i =>
    obtain ⟨w, next, hw, hstep, rfl⟩ := step_worker _ _ _ _ _ h
    have hset := fun w' => total_set remaining s.workers i w w' hw
    rcases worker_cases _ _ _ _ _ hstep with
      ⟨hpc, hsem, rfl⟩ | ⟨hpc, _, rfl⟩ | ⟨hpc, _, rfl⟩ | ⟨hpc, _, rfl⟩ | ⟨hpc, _, _, rfl⟩ |
      ⟨hpc, _, _, rfl⟩ | ⟨hpc, _, rfl⟩ | ⟨hpc, _, rfl⟩ | ⟨task, hpc, rfl⟩
    · have := hset { w with pc := Pc.check }
      simp only [hpc, remaining] at this
      simp only [measure, List.length_set]; omega
    · have := hset { w with pc := Pc.exited }
      simp only [hpc, remaining] at this
      simp only [measure, List.length_set]; omega
    · have := hset { w with pc := Pc.fetch }
      simp only [hpc, remaining] at this
      simp only [measure, List.length_set]; omega
    · have := hset { w with pc := Pc.recheck }
      simp only [hpc, remaining] at this
      simp only [measure, List.length_set]; omega
    · have := hset { w with pc := Pc.exited }
      simp only [hpc, remaining] at this
      simp only [measure, List.length_set]; omega
    · have := hset { w with pc := Pc.work (dequeue s.shared.queue (Task.ctor stack)).2.1 }
      simp only [hpc, remaining] at this
      simp only [measure, List.length_set]; omega
    · have := hset { w with pc := Pc.exited }
      simp only [hpc, remaining] at this
      simp only [measure, List.length_set]; omega
    · have := hset { w with pc := Pc.wait }
      simp only [hpc, remaining] at this
      simp only [measure, List.length_set]; omega
    · have := hset { pc := Pc.wait, processed := w.processed ++ [(task, process_file task)] }
      simp only [hpc, remaining] at this
      simp only [measure, List.length_set]; omega
  | producer =>
    obtain ⟨_, hcases⟩ := producer_cases s t h
    rcases hcases with ⟨task, rest, hsc, hr, rfl⟩ | ⟨task, rest, hsc, hr, rfl⟩ | ⟨rest, hsc, rfl⟩ |
      ⟨rest, hsc, hd, rfl⟩ | ⟨rest, hsc, rfl⟩ | ⟨rest, w, hsc, hlt, _, _, rfl⟩ |
      ⟨rest, hsc, _, rfl⟩
    all_goals simp only [measure, hsc, posts, List.length_cons]
    all_goals omega

theorem exec_bounded (process_file : Task → Bool) (stack : Task) (s t : System)
    (sched : List Actor) (h : exec process_file stack s sched = some t) :
    sched.length + measure t ≤ measure s := by
  induction sched generalizing s with
  | nil =>
    simp only [exec, Option.some.injEq] at h
    subst h
    simp
  | cons a rest ih =>
    simp only [exec] at h
    cases hn : step process_file stack a s with
    | none => simp [hn] at h
    | some next =>
      simp only [hn] at h
      have h1 := ih next h
      have h2 := measure_step _ _ a s next hn
      simp only [List.length_cons]
      omega

theorem scen_completes (process_file : Task → Bool) (stack : Task) (m n : Nat) (hm : m ≤ 128)
    (hn : 0 < n) (k : Nat) :
    ∀ s, measure s ≤ k → ScenInv m n s →
      ∃ sched t, exec process_file stack s sched = some t ∧ Final t := by
  induction k with
  | zero =>
    intro s hk hs
    rcases scen_progress process_file stack m n hn s hs with hfin | ⟨a, t, hstep⟩
    · exact ⟨[], s, rfl, hfin⟩
    · have := measure_step _ _ a s t hstep
      omega
  | succ k ih =>
    intro s hk hs
    rcases scen_progress process_file stack m n hn s hs with hfin | ⟨a, t, hstep⟩
    · exact ⟨[], s, rfl, hfin⟩
    · have hlt := measure_step _ _ a s t hstep
      obtain ⟨sched, u, hex, hfin⟩ :=
        ih t (by omega) (scen_step _ _ m n hm a s t hs hstep)
      refine ⟨a :: sched, u, ?_, hfin⟩
      simp only [exec, hstep, hex]

theorem posts_append (a b : List Instr) : posts (a ++ b) = posts a + posts b := by
  induction a with
  | nil => simp [posts]
  | cons x a ih =>
    cases x <;>
      (show posts (_ :: (a ++ b)) = _
       simp only [posts, ih]
       try omega)

theorem posts_submit (ts : List Task) : posts (submit ts) = ts.length := by
  induction ts with
  | nil => rfl
  | cons t ts ih => rw [submit_cons]; simp only [posts, ih, List.length_cons]

theorem length_submit (ts : List Task) : (submit ts).length = 2 * ts.length := by
  induction ts with
  | nil => rfl
  | cons t ts ih => rw [submit_cons]; simp only [List.length_cons, ih]; omega

theorem posts_replicate_wait (k : Nat) : posts (List.replicate k Instr.wait_done) = 0 := by
  induction k with
  | zero => rfl
  | succ k ih => simp only [List.replicate_succ, posts, ih]

theorem posts_replicate_post (k : Nat) : posts (List.replicate k Instr.post_task) = k := by
  induction k with
  | zero => rfl
  | succ k ih => simp only [List.replicate_succ, posts, ih]

theorem measure_boot (mem : QueueData) (tasks : List Task) (n : Nat) :
    measure (boot mem n (scenario tasks n)) = 7 * tasks.length + 6 * n + 2 := by
  have h1 : posts (scenario tasks n) = tasks.length + n := by
    rw [scenario_eq, posts_append, posts_append, posts_submit, posts_replicate_wait]
    simp only [closing, posts, posts_append, posts_replicate_post]
    omega
  have h2 : (scenario tasks n).length = 3 * tasks.length + n + 2 := by
    rw [scenario_eq]
    simp only [List.length_append, length_submit, List.length_replicate, closing,
      List.length_cons, List.length_nil]
    omega
  simp only [measure, boot, start, total_replicate, remaining, List.length_replicate, h1, h2]
  omega

theorem workers_length_step (process_file : Task → Bool) (stack : Task) (a : Actor)
    (s t : System) (h : step process_file stack a s = some t) :
    t.workers.length = s.workers.length := by
  cases a with
  | worker i =>
    obtain ⟨w, next, _, _, rfl⟩ := step_worker _ _ _ _ _ h
    simp
  | producer =>
    obtain ⟨_, hcases⟩ := producer_cases s t h
    rcases hcases with ⟨_, _, _, _, rfl⟩ | ⟨_, _, _, _, rfl⟩ | ⟨_, _, rfl⟩ |
      ⟨_, _, _, rfl⟩ | ⟨_, _, rfl⟩ | ⟨_, _, _, _, _, _, rfl⟩ | ⟨_, _, _, rfl⟩ <;> rfl

theorem workers_length_exec (process_file : Task → Bool) (stack : Task) (s t : System)
    (sched : List Actor) (h : exec process_file stack s sched = some t) :
    t.workers.length = s.workers.length :=
  exec_invariant process_file stack (fun u => u.workers.length = s.workers.length)
    (fun a u v hu hstep => (workers_length_step _ _ a u v hstep).trans hu) s t sched rfl h

/-! ### C14: the pool scenario ends without deadlock -/

/-- C14: with a pool of 4 workers and 10 tasks of kind ENCRYPT or DECRYPT, the
producer enqueueing each task and posting `task_sem` for it, waiting 10 times
on `done_sem`, signalling shutdown, posting `task_sem` 4 more times and calling
`wait_all`: however the processes are scheduled, a run has at most 96 actions;
in every state reached, either the scenario is at its end or some process can
act (no deadlock); and the end can be reached, where the producer has run all
its instructions (its 10 waits included), every worker has left its loop and
`wait_all` has reaped all 4 processes. -/
theorem C14_pool_scenario (process_file : Task → Bool) (stack : Task) (mem : QueueData)
    (tasks : List Task) (sched : List Actor) (s : System)
    (hm : Layout mem) (hlen : tasks.length = 10)
    (hk : ∀ t ∈ tasks, t.type = TaskType.ENCRYPT ∨ t.type = TaskType.DECRYPT)
    (hx : exec process_file stack (boot mem 4 (scenario tasks 4)) sched = some s) :
    sched.length + measure s ≤ 96 ∧
    (Final s ∨ ∃ a t, step process_file stack a s = some t) ∧
    ∃ rest t, exec process_file stack s rest = some t ∧ Final t ∧
      t.workers.length = 4 ∧ t.reaped = 4 := by
  have hk' : ∀ t ∈ tasks, t.type ≠ TaskType.TERMINATE := by
    intro t ht
    rcases hk t ht with h | h <;> rw [h] <;> decide
  have hinv : ScenInv tasks.length 4 s :=
    exec_invariant process_file stack (ScenInv tasks.length 4)
      (fun a u v hu hstep => scen_step _ _ tasks.length 4 (by omega) a u v hu hstep)
      _ _ sched (scen_boot mem tasks 4 hm hk') hx
  have hb := exec_bounded _ _ _ _ sched hx
  rw [measure_boot, hlen] at hb
  have hw : s.workers.length = 4 := by
    rw [workers_length_exec _ _ _ _ sched hx]
    simp [boot, start]
  refine ⟨by omega, scen_progress _ _ tasks.length 4 (by omega) s hinv, ?_⟩
  obtain ⟨rest, t, hex, hfin⟩ :=
    scen_completes process_file stack tasks.length 4 (by omega) (by omega) (measure s) s
      (le_refl _) hinv
  have hw' : t.workers.length = 4 := by
    rw [workers_length_exec _ _ _ _ rest hex]; exact hw
  exact ⟨rest, t, hex, hfin, hw', by rw [hfin.2.2.1]; exact hw'⟩

/-- Witness of C14: the state after the first job was submitted and worker 0
woke up, with a task-processing function that always fails. -/
theorem C14_pool_scenario_witness :
    [Actor.producer, Actor.producer, Actor.worker 0, Actor.worker 0].length
        + measure Sample.pool_state ≤ 96 ∧
    (Final Sample.pool_state ∨
      ∃ a t, step (fun _ => false) Sample.blank a Sample.pool_state = some t) ∧
    ∃ rest t, exec (fun _ => false) Sample.blank Sample.pool_state rest = some t ∧ Final t ∧
      t.workers.length = 4 ∧ t.reaped = 4 :=
  C14_pool_scenario (fun _ => false) Sample.blank Sample.segment
    (List.map Sample.job (List.range 10))
    [Actor.producer, Actor.producer, Actor.worker 0, Actor.worker 0] Sample.pool_state
    (by simp [Layout, Sample.segment]) (by simp)
    (fun t ht => by
      simp only [List.mem_map] at ht
      obtain ⟨a, _, rfl⟩ := ht
      exact Or.inl rfl)
    rfl

end ProcessPool

end cryptstream
